import Mathlib

/-!
Verification development for the `async-easy-model` repository.

This file gives a shallow embedding, in Lean 4, of the schema-migration
subsystem (`async_easy_model/migrations.py`), the virtual-relationship
computation of the schema visualizer (`async_easy_model/visualization.py`),
the migration-related control flow of `init_db`
(`async_easy_model/model.py`), and — modelled from the specification, since
the module itself is not part of the provided sources — the relationship
resolver (`auto_relationships`).  Theorems about these definitions settle
the claims of the specification.

Conventions of the embedding:
* Python dictionaries whose keys are known to be unique (table columns,
  model registries) are modelled as association lists `List (String × α)`;
  theorems that depend on key uniqueness take `Nodup` hypotheses.
* The SHA-256 hex digest of the sorted-keys JSON dump used for model
  fingerprints is modelled by the canonical (key-sorted) structure that is
  dumped: `json.dumps(·, sort_keys := True)` and SHA-256 are treated as an
  injective post-processing step, so equality and inequality of
  fingerprints coincide with equality of the canonical structure.
* `async` functions are modelled as pure state-passing functions; the
  database connection's `execute` is an explicit functional parameter that
  may fail (`Except`), and the transaction opened by `engine.begin()` is
  modelled by a log of DDL statements that is either committed or
  discarded (rollback).
-/

/-! ## Migration operations (`migrations.py`)

`MigrationOperation` dictionaries `{"operation": ..., "table_name": ..., ...}`
are modelled as a tagged variant carrying the same fields. -/

inductive Op where
  | createTable (table_name : String)
  | addColumn (table_name column_name column_type : String) (nullable : Bool)
  | alterColumn (table_name column_name old_type new_type : String)
  | dropColumn (table_name column_name : String)
deriving DecidableEq, Repr

/-- A column of the in-memory model: an entry of `model.__table__.columns`
restricted to the attributes `generate_migration_plan` reads
(`name`, `str(column.type)`, `column.nullable`). -/
structure ModelColumn where
  name : String
  type : String
  nullable : Bool
deriving DecidableEq, Repr

/-- A column reported by live-schema introspection
(`inspector.get_columns`), restricted to the attributes the planner reads. -/
structure DbColumn where
  name : String
  type : String
deriving DecidableEq, Repr

/-- Body of `MigrationManager.generate_migration_plan` for an existing
table: one pass over the model's columns appending `add_column` (model
column absent from the live schema) or `alter_column` (present with a
different type string), then one pass over the live columns appending
`drop_column` for columns absent from the model.  Dictionary membership
and indexing (`name in db_columns`, `db_columns[name]`) are modelled by
`List.find?` on the association list. -/
def planForTable (t : String) (mcols : List ModelColumn) (dcols : List DbColumn) : List Op :=
  (mcols.filterMap (fun c =>
    match dcols.find? (fun d => d.name == c.name) with
    | none => some (Op.addColumn t c.name c.type c.nullable)
    | some d => if c.type ≠ d.type then some (Op.alterColumn t c.name d.type c.type) else none))
  ++ (dcols.filterMap (fun d =>
    if mcols.all (fun c => c.name ≠ d.name) then some (Op.dropColumn t d.name) else none))

/-- `MigrationManager.generate_migration_plan`: the live schema is `none`
when `inspector.has_table` is false (the table is absent), in which case
the plan is a single `create_table`; otherwise the column diff above. -/
def generate_migration_plan (t : String) (mcols : List ModelColumn)
    (live : Option (List DbColumn)) : List Op :=
  match live with
  | none => [Op.createTable t]
  | some dcols => planForTable t mcols dcols

def Op.isAdd : Op → Bool
  | .addColumn .. => true
  | _ => false

def Op.isAlter : Op → Bool
  | .alterColumn .. => true
  | _ => false

def Op.isDrop : Op → Bool
  | .dropColumn .. => true
  | _ => false

/-- "Every operation satisfying `p` precedes every operation satisfying
`q`" in the list `ops`, stated on positions. -/
def precedesAll (p q : Op → Bool) (ops : List Op) : Prop :=
  ∀ i, (hi : i < ops.length) → ∀ j, (hj : j < ops.length) →
    p (ops.get ⟨i, hi⟩) → q (ops.get ⟨j, hj⟩) → i < j

instance (p q : Op → Bool) (ops : List Op) : Decidable (precedesAll p q ops) := by
  unfold precedesAll; infer_instance

example :
    generate_migration_plan "t" [⟨"x", "INTEGER", true⟩, ⟨"y", "TEXT", true⟩]
      (some [⟨"x", "TEXT"⟩]) =
    [Op.alterColumn "t" "x" "TEXT" "INTEGER", Op.addColumn "t" "y" "TEXT" true] := by
  decide

example :
    generate_migration_plan "t" [⟨"x", "INTEGER", true⟩] none = [Op.createTable "t"] := by
  decide

/-! ## Structural fingerprints (`MigrationManager._get_model_hash`)

The source builds a dictionary
`{"table_name": ..., "fields": {name: {...}}, "relationships": {name: {...}}}`
(the `"relationships"` key only when the class has
`__sqlmodel_relationships__`), serializes it with
`json.dumps(model_dict, sort_keys=True)` and hashes the result with
SHA-256.  We model the hash by the canonical structure that is dumped:
the two variable-key dictionaries with their entries sorted by key.
`json.dumps` is injective on that structure and SHA-256 is treated as
injective, so equality of the modelled fingerprints coincides with
equality of hex digests in the source. -/

/-- Per-field information serialized by `_get_model_hash`:
`str(column.type)`, `column.nullable`, `column.primary_key`,
`str(column.default)` (or `None`), `column.unique` (a tri-state in
SQLAlchemy, hence `Option Bool`) and the list of `str(fk)` strings. -/
structure FieldInfo where
  type : String
  nullable : Bool
  primary_key : Bool
  default : Option String
  unique : Option Bool
  foreign_keys : List String
deriving DecidableEq, Repr

/-- Per-relationship information serialized by `_get_model_hash`:
target class name, `back_populates`, `link_model` class name (or `None`)
and `str(rel_info.sa_relationship_args)`. -/
structure RelInfo where
  target : String
  back_populates : Option String
  link_model : Option String
  sa_relationship_args : String
deriving DecidableEq, Repr

/-- The in-memory description of a model class, as far as the migration
subsystem reads it: `__name__`, `__tablename__`, the columns of
`__table__` and (optionally) `__sqlmodel_relationships__`.
`relationships = none` models a class without the
`__sqlmodel_relationships__` attribute. -/
structure ModelDesc where
  name : String
  table_name : String
  fields : List (String × FieldInfo)
  relationships : Option (List (String × RelInfo))
deriving DecidableEq, Repr

/-- Key order `a.1 ≤ b.1` used to canonicalize a JSON dictionary
(`sort_keys=True`). -/
def keyLe {α : Type} (a b : String × α) : Prop := a.1 ≤ b.1

instance {α : Type} : DecidableRel (keyLe (α := α)) := fun a b =>
  inferInstanceAs (Decidable (a.1 ≤ b.1))

instance {α : Type} : IsTotal (String × α) keyLe := ⟨fun a b => le_total a.1 b.1⟩

instance {α : Type} : IsTrans (String × α) keyLe := ⟨fun _ _ _ h h' => le_trans h h'⟩

/-- Sort a JSON dictionary's entries by key (`json.dumps(·, sort_keys=True)`). -/
def sortByKey {α : Type} (l : List (String × α)) : List (String × α) :=
  l.insertionSort keyLe

/-- The canonical value whose SHA-256-of-JSON-dump the source stores as
the model's fingerprint. -/
structure HashVal where
  table_name : String
  fields : List (String × FieldInfo)
  relationships : Option (List (String × RelInfo))
deriving DecidableEq, Repr

/-- `MigrationManager._get_model_hash`, modelled up to the injective
`json.dumps(·, sort_keys=True)` / SHA-256 post-processing (see the module
docstring): the canonical key-sorted structure built from the model. -/
def _get_model_hash (m : ModelDesc) : HashVal :=
  { table_name := m.table_name
    fields := sortByKey m.fields
    relationships := m.relationships.map sortByKey }

/-- The planner's view of the model's columns
(`model.__table__.columns.items()` restricted to name, type string,
nullability) derived from the same column data the fingerprint reads. -/
def modelColumns (m : ModelDesc) : List ModelColumn :=
  m.fields.map (fun p => ⟨p.1, p.2.type, p.2.nullable⟩)

/-! ## Persisted state (`model_hashes.json`, `migration_history.json`)

A state file is either absent, present but not parseable as JSON
(`json.JSONDecodeError`), or present with parsed content. -/

inductive FileContent (α : Type) where
  | absent
  | corrupt
  | valid (data : α)
deriving DecidableEq, Repr

/-- A recorded migration: one entry of the `"migrations"` list of the
history file, `{"timestamp": ..., "model": ..., "changes": [...]}`.  The
wall-clock timestamp written by the source carries no schema information
and is omitted from the model. -/
structure MigrationRecord where
  model : String
  changes : List Op
deriving DecidableEq, Repr

/-- The two files under `.easy_model_migrations/`. -/
structure MigFiles where
  hashFile : FileContent (List (String × HashVal))
  historyFile : FileContent (List MigrationRecord)
deriving DecidableEq, Repr

/-- `json.loads` on a state file, as seen through `FileContent`:
a missing file cannot be read, a corrupt file raises
`JSONDecodeError`, a valid file yields its content. -/
def parseFile {α : Type} : FileContent α → Except String α
  | .absent => .error "FileNotFoundError"
  | .corrupt => .error "JSONDecodeError"
  | .valid a => .ok a

/-- `MigrationManager._load_model_hashes`: returns `{}` for a missing
file; otherwise parses the file, catching `JSONDecodeError` (with a
warning) and returning `{}` in that case. -/
def _load_model_hashes (fc : FileContent (List (String × HashVal))) :
    List (String × HashVal) :=
  match fc with
  | .absent => []
  | fc =>
    match parseFile fc with
    | .error _ => []
    | .ok hashes => hashes

/-- Dictionary lookup (`k in d` / `d[k]`) on an association list: the
first entry with the given key. -/
def dictFind {α : Type} (l : List (String × α)) (k : String) : Option (String × α) :=
  l.find? (fun p => p.1 == k)

/-- Python `hashes[name] = h` on the hash dictionary: replace the value
of an existing key in place, else append the new entry. -/
def dictSet {α : Type} (l : List (String × α)) (k : String) (v : α) : List (String × α) :=
  if l.any (fun p => p.1 == k) then
    l.map (fun p => if p.1 == k then (k, v) else p)
  else l ++ [(k, v)]

/-- `MigrationManager._record_migration`: load the history (an absent or
corrupt file is treated as the empty history `{"migrations": []}`),
append the new record, write the file back. -/
def _record_migration (model_name : String) (changes : List Op)
    (fc : FileContent (List MigrationRecord)) : FileContent (List MigrationRecord) :=
  let history :=
    match fc with
    | .absent => []
    | fc =>
      match parseFile fc with
      | .error _ => []
      | .ok h => h
  .valid (history ++ [⟨model_name, changes⟩])

/-- One entry of the status map returned by `detect_model_changes`:
`{"status": "new", "hash": ...}` or
`{"status": "modified", "old_hash": ..., "new_hash": ...}`. -/
inductive ChangeStatus where
  | isNew (hash : HashVal)
  | isModified (old_hash new_hash : HashVal)
deriving DecidableEq, Repr

/-- `MigrationManager.detect_model_changes`: loads the stored hashes,
then for each model (keyed by `__name__`) emits a `new` entry when no
hash is stored, a `modified` entry when the stored hash differs from the
current one, and nothing otherwise.  The function performs no writes, so
it returns the file state unchanged alongside the status map. -/
def detect_model_changes (models : List ModelDesc) (files : MigFiles) :
    List (String × ChangeStatus) × MigFiles :=
  let stored := _load_model_hashes files.hashFile
  (models.filterMap (fun m =>
    let current := _get_model_hash m
    match dictFind stored m.name with
    | none => some (m.name, ChangeStatus.isNew current)
    | some p => if p.2 ≠ current then some (m.name, ChangeStatus.isModified p.2 current) else none),
   files)

/-! ## Applying migrations (`apply_migration`, `migrate_models`)

`connection.execute` is modelled by a caller-supplied function
`exec : Op → Except String Unit`; a successful execution appends the
statement to the open transaction's DDL log, a failure raises (the
exception is not caught anywhere in `apply_migration` or
`migrate_models`).  `async with engine.begin()` commits the log on
normal exit and discards it (rollback) when an exception escapes. -/

/-- State visible inside an open transaction: the DDL statements executed
so far in the transaction (uncommitted) and the on-disk migration files
(file writes are *not* part of the database transaction). -/
structure RunState where
  db : List Op
  files : MigFiles
deriving DecidableEq, Repr

/-- Whether `apply_migration` executes a statement for an operation:
`add_column` looks the column up in `model.__table__.columns` and is
silently skipped when absent (`if column_def:`); the other operations are
always executed. -/
def shouldExecOp (m : ModelDesc) (op : Op) : Bool :=
  match op with
  | .addColumn _ cname _ _ => m.fields.any (fun p => p.1 == cname)
  | _ => true

/-- The operation loop of `apply_migration`: executes the operations in
order, accumulating `applied_changes` (exactly the executed operations).
On the first failing execution the exception propagates, with the
operations already executed. -/
def applyLoop (exec : Op → Except String Unit) (m : ModelDesc) :
    List Op → List Op → Except (String × List Op) (List Op)
  | [], applied => .ok applied
  | op :: rest, applied =>
    if shouldExecOp m op then
      match exec op with
      | .error e => .error (e, applied)
      | .ok _ => applyLoop exec m rest (applied ++ [op])
    else applyLoop exec m rest applied

/-- The file updates performed at the end of a successful
`apply_migration`: `_record_migration(model.__name__, applied_changes)`
followed by `_save_model_hashes` of the stored hashes with
`hashes[model.__name__] = _get_model_hash(model)`. -/
def updateFilesAfterApply (m : ModelDesc) (applied : List Op) (files : MigFiles) : MigFiles :=
  let files1 : MigFiles :=
    { files with historyFile := _record_migration m.name applied files.historyFile }
  let hashes := _load_model_hashes files1.hashFile
  { files1 with hashFile := .valid (dictSet hashes m.name (_get_model_hash m)) }

/-- `MigrationManager.apply_migration`: execute the operations in order
on the open connection; only after all of them succeed record the applied
operations in the history and update the stored hash for the model.  A
failing execution propagates the exception immediately: the partial DDL
stays in the (uncommitted) transaction log and the files are untouched. -/
def apply_migration (exec : Op → Except String Unit) (m : ModelDesc)
    (operations : List Op) (st : RunState) : Except (String × RunState) RunState :=
  match applyLoop exec m operations [] with
  | .error (e, done) => .error (e, { st with db := st.db ++ done })
  | .ok applied =>
    .ok { db := st.db ++ applied
          files := updateFilesAfterApply m applied st.files }

/-- State outside any transaction: the committed database schema (as the
log of committed DDL) and the migration files. -/
structure CommittedState where
  db : List Op
  files : MigFiles
deriving DecidableEq, Repr

/-- The entity loop inside `migrate_models`'s single
`async with engine.begin()` block: for each changed model (status is
always `new` or `modified`), find the model class by name, generate its
plan from the live schema and apply it; the plan (not the applied subset)
is stored in the results map.  An exception from `apply_migration`
escapes the loop. -/
def runLoop (exec : Op → Except String Unit) (live : String → Option (List DbColumn))
    (models : List ModelDesc) :
    List (String × ChangeStatus) → RunState → List (String × List Op) →
    Except (String × RunState) (List (String × List Op) × RunState)
  | [], st, results => .ok (results, st)
  | (name, _) :: rest, st, results =>
    match models.find? (fun m => m.name == name) with
    | none => runLoop exec live models rest st results
    | some m =>
      let operations := generate_migration_plan m.table_name (modelColumns m) (live m.table_name)
      if operations.isEmpty then runLoop exec live models rest st results
      else
        match apply_migration exec m operations st with
        | .error est => .error est
        | .ok st' => runLoop exec live models rest st' (results ++ [(name, operations)])

/-- `MigrationManager.migrate_models`: detect changes; if any, open one
transaction (`engine.begin()`) shared by *all* changed models and run the
entity loop inside it.  On normal exit the transaction commits (the DDL
log is appended to the committed schema); when an exception escapes, the
transaction rolls back — the whole DDL log of the run is discarded — but
file writes already performed are not undone, and the exception is
surfaced to the caller. -/
def migrate_models (exec : Op → Except String Unit) (live : String → Option (List DbColumn))
    (models : List ModelDesc) (cs : CommittedState) :
    Except (String × CommittedState) (List (String × List Op) × CommittedState) :=
  let changes := (detect_model_changes models cs.files).1
  if changes.isEmpty then .ok ([], cs)
  else
    match runLoop exec live models changes { db := [], files := cs.files } [] with
    | .error (e, st) => .error (e, { db := cs.db, files := st.files })
    | .ok (results, st) => .ok (results, { db := cs.db ++ st.db, files := st.files })

/-! ## Virtual relationship fields (`visualization.py`)

`ModelVisualizer._get_virtual_relationship_fields` works on the model
registry (class name → class) and on the per-class foreign-key mapping
computed by `_get_foreign_keys` (field name → `"table.column"` string).
The reflection in `_get_foreign_keys` is not embeddable, so each
registered model carries its foreign-key mapping as data.  `fields`
(field name, primary-key flag) is carried only to state junction-hood the
way the specification defines it; the source function never reads it. -/

structure VizModel where
  name : String
  table_name : String
  fks : List (String × String)
  fields : List (String × Bool)
deriving DecidableEq, Repr

/-- One value of the `virtual_fields` dictionary. -/
structure VirtualField where
  type : String
  is_list : Bool
  related_model : String
deriving DecidableEq, Repr

/-- Python `str.lower()` for the ASCII range, written so that it reduces
in the kernel (the library's `(lowerStr String)` is an extern function). -/
def lowerChar (c : Char) : Char :=
  if ('A' ≤ c ∧ c ≤ 'Z') then Char.ofNat (c.toNat + 32) else c

def lowerStr (s : String) : String := ⟨s.data.map lowerChar⟩

/-- The characters before the first `'.'`. -/
def takeUntilDot : List Char → List Char
  | [] => []
  | c :: cs => if c = '.' then [] else c :: takeUntilDot cs

/-- `fk_target.split(".")[0]` guarded by `"." in fk_target`, written on
the character list so that it reduces in the kernel. -/
def fkTable (s : String) : Option String :=
  if s.data.contains '.' then some ⟨takeUntilDot s.data⟩ else none

/-- `field_name.endswith("_id")`, written on the character list. -/
def endsWithId (s : String) : Bool :=
  decide (3 ≤ s.data.length) && (s.data.drop (s.data.length - 3) == ['_', 'i', 'd'])

/-- `field_name[:-3] if field_name.endswith("_id") else field_name`. -/
def relFieldName (field_name : String) : String :=
  if endsWithId field_name then ⟨field_name.data.take (field_name.data.length - 3)⟩
  else field_name

/-- First loop of `_get_virtual_relationship_fields`: for each foreign
key with a dotted target, find the first registry class whose (lowercase)
table name matches the target table; record its class name in
`related_models` and add a singular (`is_list = False`) virtual field
named after the foreign-key column with its `_id` suffix stripped,
skipping duplicates. -/
def singularPass (reg : List VizModel) :
    List (String × String) → List (String × VirtualField) → List String →
    List (String × VirtualField) × List String
  | [], vf, rel => (vf, rel)
  | (field_name, fk_target) :: rest, vf, rel =>
    match fkTable fk_target with
    | none => singularPass reg rest vf rel
    | some target_table =>
      match reg.find? (fun cls => (lowerStr cls.table_name) == (lowerStr target_table)) with
      | none => singularPass reg rest vf rel
      | some cls =>
        let rel' := if cls.name ∈ rel then rel else rel ++ [cls.name]
        let rel_name := relFieldName field_name
        if vf.any (fun p => p.1 == rel_name) then singularPass reg rest vf rel'
        else
          singularPass reg rest
            (vf ++ [(rel_name, ⟨cls.name, false, cls.name⟩)]) rel'

/-- Scan of a candidate junction's foreign keys: whether some key
references this model's table (exact comparison in the source) and the
(deduplicated) class names of the other referenced models, each resolved
to the first registry class with exactly matching table name. -/
def junctionRefs (reg : List VizModel) (table_name : String) :
    List (String × String) → Bool → List String → Bool × List String
  | [], referenced, others => (referenced, others)
  | (_, fk_target) :: rest, referenced, others =>
    match fkTable fk_target with
    | none => junctionRefs reg table_name rest referenced others
    | some target_table =>
      if target_table == table_name then junctionRefs reg table_name rest true others
      else
        match reg.find? (fun o => o.table_name == target_table) with
        | none => junctionRefs reg table_name rest referenced others
        | some o =>
          junctionRefs reg table_name rest referenced
            (if o.name ∈ others then others else others ++ [o.name])

/-- Second loop of `_get_virtual_relationship_fields`: every registry
class other than the model itself with at least two foreign keys that
references this model's table contributes, for each other referenced
model, a plural (`is_list = True`) many-to-many virtual field
`{other.lower()}s` (a plain dictionary assignment, overwriting any
previous entry under that key). -/
def junctionPassViz (reg : List VizModel) (model : VizModel) :
    List VizModel → List (String × VirtualField) → List (String × VirtualField)
  | [], vf => vf
  | junction :: rest, vf =>
    if junction = model then junctionPassViz reg model rest vf
    else if junction.fks.length < 2 then junctionPassViz reg model rest vf
    else
      match junctionRefs reg model.table_name junction.fks false [] with
      | (referenced, others) =>
        if referenced && !others.isEmpty then
          junctionPassViz reg model rest
            (others.foldl (fun acc other =>
              dictSet acc ((lowerStr other) ++ "s")
                ⟨"List[" ++ other ++ "]", true, other⟩) vf)
        else junctionPassViz reg model rest vf

/-- `ModelVisualizer._get_virtual_relationship_fields`: the singular pass
over the model's own foreign keys; then, if the model is itself a
junction table (at least two foreign keys referencing at least two
distinct tables) with at least two related models, return early with only
the singular fields; otherwise add the many-to-many fields contributed by
junction tables elsewhere in the registry. -/
def virtualRelationshipFields (reg : List VizModel) (model : VizModel) :
    List (String × VirtualField) :=
  match singularPass reg model.fks [] [] with
  | (vf, rel) =>
    let is_junction_table :=
      decide (2 ≤ model.fks.length) &&
      decide (2 ≤ ((model.fks.filterMap (fun p => fkTable p.2)).dedup).length)
    if is_junction_table && decide (2 ≤ rel.length) then vf
    else junctionPassViz reg model reg vf

/-! ## `init_db` (`model.py`)

`init_db` guards the whole migration path behind
`from .migrations import check_and_migrate_models,
_create_table_without_indexes, _create_indexes_one_by_one`.
An ImportError (raised when any requested name is not an attribute of the
module) sets `has_migrations = False`. -/

/-- The top-level names the `async_easy_model.migrations` module defines
(its classes, functions, constants and imported names), read off the
source file.  Neither `_create_table_without_indexes` nor
`_create_indexes_one_by_one` is among them. -/
def migrationsModuleNames : List String :=
  ["hashlib", "json", "os", "inspect", "logging", "datetime", "Path",
   "Dict", "List", "Set", "Type", "Optional", "Any", "Tuple",
   "sa_inspect", "Column", "Table", "MetaData",
   "CreateTable", "DropTable", "AddColumn", "DropColumn", "AlterColumn",
   "AsyncConnection", "SQLModel", "Field",
   "MIGRATIONS_DIR", "MODEL_HASHES_FILE", "MIGRATIONS_HISTORY_FILE",
   "MigrationManager", "check_and_migrate_models"]

/-- `from .migrations import n₁, n₂, ...` succeeds only when every
requested name is defined by the module.  (In fact the module would
already fail to import — `sqlalchemy.schema` exports none of `AddColumn`,
`DropColumn`, `AlterColumn` — which raises ImportError just the same; the
model charitably assumes the module itself loads.) -/
def importFromMigrations (names : List String) : Bool :=
  names.all (fun n => migrationsModuleNames.contains n)

/-- Observable outcome of `init_db` for the migration subsystem. -/
structure InitDbResult where
  has_migrations : Bool
  check_invoked : Bool
  migration_results : List (String × List Op)
deriving DecidableEq, Repr

/-- The migration-related control flow of `init_db`: `has_migrations` is
set by the conditional import; `check_and_migrate_models` (supplied here
as a function argument, since its behaviour is irrelevant when it is
never called) runs only when `has_migrations` and `migrate` both hold,
and `migration_results` starts out `{}`. -/
def init_db (migrate : Bool) (checkAndMigrate : Unit → List (String × List Op)) : InitDbResult :=
  let has_migrations := importFromMigrations
    ["check_and_migrate_models", "_create_table_without_indexes", "_create_indexes_one_by_one"]
  if has_migrations && migrate then
    { has_migrations := has_migrations, check_invoked := true
      migration_results := checkAndMigrate () }
  else
    { has_migrations := has_migrations, check_invoked := false, migration_results := [] }

/-! ## RelationshipResolver (modelled from the spec)

The `auto_relationships` module is referenced by `model.py` and by the
examples but is not part of the provided sources, so the resolver is
modelled from the specification (spec §4.1): `resolveAll()` scans the
registry; for every owner field holding a foreign key that references a
registered target's primary key and for which no relationship attribute
exists yet, it synthesizes a many-to-one attribute on the owner (named by
stripping the `_id` suffix, falling back to the full column name) and a
one-to-many attribute on the target (named by pluralizing the owner's
table name), with matching back-references; a synthesized pair whose
attribute name collides with an existing attribute is skipped rather than
overwriting.  Junction entities (all non-key fields are foreign keys, to
at least two distinct targets) additionally produce a many-to-many
attribute on each pair of ends, skipped on name collision, and nothing
further on the junction itself.  `resolveAll()` is idempotent. -/

inductive Card where
  | manyToOne
  | oneToMany
  | manyToMany
deriving DecidableEq, Repr

/-- Modelled from the spec: a `RelationshipDescriptor` — attribute name on
the owning side, target entity's table, cardinality, back-reference name,
the foreign key it was synthesized from (owning table, column; `none` for
many-to-many and for declared attributes without one), and the junction
entity for many-to-many. -/
structure RelAttr where
  attr_name : String
  target_table : String
  card : Card
  back_ref : String
  fk_id : Option (String × String)
  junction : Option String
deriving DecidableEq, Repr

/-- Modelled from the spec: a field of an `EntityDescriptor` as the
resolver reads it — name, primary-key flag and the referenced
(table, column) when the field holds a foreign key. -/
structure FieldSpec where
  name : String
  is_primary : Bool
  foreign_key : Option (String × String)
deriving DecidableEq, Repr

/-- Modelled from the spec: an `EntityDescriptor` — table name, fields,
and the mutable set of relationship attributes the resolver populates. -/
structure Entity where
  table_name : String
  fields : List FieldSpec
  rels : List RelAttr
deriving DecidableEq, Repr

def lookupEnt (reg : List Entity) (t : String) : Option Entity :=
  reg.find? (fun e => e.table_name == t)

def updateEnt (reg : List Entity) (t : String) (g : Entity → Entity) : List Entity :=
  reg.map (fun e => if e.table_name == t then g e else e)

/-- Pluralization used for synthesized one-to-many / many-to-many
attribute names (spec: "named by pluralizing the owner's table name"). -/
def pluralizeTable (t : String) : String := t ++ "s"

/-- The target entity of a foreign-key field, provided the referenced
table is registered and the referenced column is its primary key. -/
def resolvableTarget (reg : List Entity) (f : FieldSpec) : Option Entity :=
  match f.foreign_key with
  | none => none
  | some (tt, tc) =>
    match lookupEnt reg tt with
    | none => none
    | some tgt =>
      if tgt.fields.any (fun g => g.name == tc && g.is_primary) then some tgt else none

/-- The inference candidates: every (owner table, foreign-key field) pair
of the registry, in registry order. -/
def fkCands (reg : List Entity) : List (String × FieldSpec) :=
  reg.flatMap (fun e =>
    e.fields.filterMap (fun f => if f.foreign_key.isSome then some (e.table_name, f) else none))

/-- One foreign-key inference step: skipped when the target is not
resolvable, when the owner already has a relationship attribute for this
foreign key, or when either synthesized name collides with an existing
attribute; otherwise adds the many-to-one / one-to-many pair. -/
def fkStep (reg : List Entity) (c : String × FieldSpec) : List Entity :=
  match lookupEnt reg c.1 with
  | none => reg
  | some owner =>
    match resolvableTarget reg c.2 with
    | none => reg
    | some tgt =>
      if owner.rels.any (fun r => r.fk_id == some (c.1, c.2.name)) then reg
      else
        let mname := relFieldName c.2.name
        let pname := pluralizeTable c.1
        if owner.rels.any (fun r => r.attr_name == mname) ||
            tgt.rels.any (fun r => r.attr_name == pname) then reg
        else
          let m2o : RelAttr := ⟨mname, tgt.table_name, .manyToOne, pname, some (c.1, c.2.name), none⟩
          let o2m : RelAttr := ⟨pname, c.1, .oneToMany, mname, some (c.1, c.2.name), none⟩
          updateEnt (updateEnt reg c.1 (fun e => { e with rels := e.rels ++ [m2o] }))
            tgt.table_name (fun e => { e with rels := e.rels ++ [o2m] })

/-- The distinct target tables of a junction entity: nonempty only when
every non-key field carries a foreign key and there are at least two of
them referencing at least two distinct tables. -/
def junctionTargets (e : Entity) : List String :=
  let nonKey := e.fields.filter (fun f => !f.is_primary)
  if 2 ≤ nonKey.length && nonKey.all (fun f => f.foreign_key.isSome) &&
      2 ≤ ((nonKey.filterMap (fun f => f.foreign_key.map Prod.fst)).dedup).length then
    (nonKey.filterMap (fun f => f.foreign_key.map Prod.fst)).dedup
  else []

/-- The many-to-many candidates: for each junction entity, each ordered
pair of distinct ends, tagged with the junction's table. -/
def jCands (reg : List Entity) : List (String × String × String) :=
  reg.flatMap (fun j =>
    (junctionTargets j).flatMap (fun a =>
      (junctionTargets j).filterMap (fun b =>
        if a ≠ b then some (j.table_name, a, b) else none)))

/-- One many-to-many synthesis step for the ordered pair (a, b) linked
through junction jt: adds a many-to-many attribute named after the
pluralized other end on entity a, skipped when either end is unregistered
or the name collides with an existing attribute. -/
def jStep (reg : List Entity) (c : String × String × String) : List Entity :=
  match lookupEnt reg c.2.1, lookupEnt reg c.2.2 with
  | some ea, some _ =>
    if ea.rels.any (fun r => r.attr_name == pluralizeTable c.2.2) then reg
    else
      updateEnt reg c.2.1 (fun e =>
        { e with rels := e.rels ++
            [⟨pluralizeTable c.2.2, c.2.2, .manyToMany, pluralizeTable c.2.1, none, some c.1⟩] })
  | _, _ => reg

/-- Modelled from the spec: `resolveAll()` — the foreign-key pass over
all candidates followed by the many-to-many pass over all junction
pairs. -/
def resolveAll (reg : List Entity) : List Entity :=
  let reg1 := (fkCands reg).foldl fkStep reg
  (jCands reg1).foldl jStep reg1

/-- The pair of attributes the foreign-key rule synthesizes for one
candidate (empty when the candidate's target is not resolvable), each
tagged with the table it is added to. -/
def fkAddsOfCand (reg : List Entity) (c : String × FieldSpec) : List (String × RelAttr) :=
  match resolvableTarget reg c.2 with
  | none => []
  | some tgt =>
    let mname := relFieldName c.2.name
    let pname := pluralizeTable c.1
    [(c.1, ⟨mname, tgt.table_name, .manyToOne, pname, some (c.1, c.2.name), none⟩),
     (tgt.table_name, ⟨pname, c.1, .oneToMany, mname, some (c.1, c.2.name), none⟩)]

/-- The attribute one junction pair synthesizes (none when an end is not
registered), tagged with the table it is added to. -/
def jAddsOfCand (reg : List Entity) (c : String × String × String) : List (String × RelAttr) :=
  if (lookupEnt reg c.2.1).isSome && (lookupEnt reg c.2.2).isSome then
    [(c.2.1, ⟨pluralizeTable c.2.2, c.2.2, .manyToMany, pluralizeTable c.2.1, none, some c.1⟩)]
  else []

/-- All attributes `resolveAll` attempts to add, in the order it attempts
them. -/
def allAdds (reg : List Entity) : List (String × RelAttr) :=
  (fkCands reg).flatMap (fkAddsOfCand reg) ++ (jCands reg).flatMap (jAddsOfCand reg)

/-- Append to an entity every attempted addition targeted at its table. -/
def addsFor (adds : List (String × RelAttr)) (e : Entity) : Entity :=
  { e with rels := e.rels ++ adds.filterMap (fun p => if p.1 == e.table_name then some p.2 else none) }

def applyAdds (reg : List Entity) (adds : List (String × RelAttr)) : List Entity :=
  reg.map (addsFor adds)

/-- A collision-free, fully-unresolved registry: table names are unique,
field names are unique per entity, no candidate foreign key already
carries a relationship attribute, and the names `resolveAll` would
synthesize are pairwise distinct (per entity) and distinct from every
existing attribute name.  Under these conditions no synthesis step is
skipped and `resolveAll` has a closed form. -/
def collisionFree (reg : List Entity) : Prop :=
  (reg.map Entity.table_name).Nodup ∧
  (∀ e ∈ reg, (e.fields.map FieldSpec.name).Nodup) ∧
  (∀ c ∈ fkCands reg, ∀ e ∈ reg, e.table_name = c.1 →
    ∀ r ∈ e.rels, r.fk_id ≠ some (c.1, c.2.name)) ∧
  ((allAdds reg).map (fun p => (p.1, p.2.attr_name))).Nodup ∧
  (∀ p ∈ allAdds reg, ∀ e ∈ reg, e.table_name = p.1 →
    ∀ r ∈ e.rels, r.attr_name ≠ p.2.attr_name)

instance (reg : List Entity) : Decidable (collisionFree reg) := by
  unfold collisionFree; infer_instance

/-- Strict key order, used to show canonical serializations are unique. -/
def keyLt {α : Type} (a b : String × α) : Prop := a.1 < b.1

/-- Permutation of the optional relationship dictionaries: both absent,
or both present with permuted entry lists. -/
def relsPerm {α : Type} : Option (List (String × α)) → Option (List (String × α)) → Prop
  | none, none => True
  | some l, some l' => l.Perm l'
  | _, _ => False

/-! ## Concrete fixtures used by witnesses and counterexamples -/

/-- An integer primary-key column description. -/
def fidPK : FieldInfo := ⟨"INTEGER", false, true, none, none, []⟩

def mA4 : ModelDesc := ⟨"A", "a", [("id", fidPK)], none⟩

def mB4 : ModelDesc := ⟨"B", "b", [("id", fidPK)], none⟩

def mC4 : ModelDesc := ⟨"C", "c", [("id", fidPK)], none⟩

/-- An execution oracle that fails exactly on `CREATE TABLE b`. -/
def execFailB : Op → Except String Unit := fun op =>
  match op with
  | .createTable "b" => .error "cannot create"
  | _ => .ok ()

/-- Both state files missing (first run). -/
def files0 : MigFiles := ⟨.absent, .absent⟩

/-- The file state after entity `A`'s migration has been recorded. -/
def filesA : MigFiles :=
  ⟨.valid [("A", _get_model_hash mA4)], .valid [⟨"A", [Op.createTable "a"]⟩]⟩

/-- Visualizer fixtures: two plain models and a junction model. -/
def vizA : VizModel := ⟨"Author", "author", [], [("id", true)]⟩

def vizB : VizModel := ⟨"Book", "book", [], [("id", true)]⟩

def vizJ : VizModel :=
  ⟨"AuthorBook", "authorbook",
   [("author_id", "author.id"), ("book_id", "book.id")],
   [("id", true), ("author_id", false), ("book_id", false)]⟩

def vizReg : List VizModel := [vizA, vizB, vizJ]

/-- Resolver fixtures: a target entity that already has an attribute
named `books` (for a different foreign key), triggering the collision
rule. -/
def author7 : Entity :=
  ⟨"author", [⟨"id", true, none⟩],
   [⟨"books", "essay", .oneToMany, "author", some ("essay", "author_id"), none⟩]⟩

def book7 : Entity :=
  ⟨"book", [⟨"id", true, none⟩, ⟨"author_id", false, some ("author", "id")⟩], []⟩

def fkField7 : FieldSpec := ⟨"author_id", false, some ("author", "id")⟩

def reg7 : List Entity := [author7, book7]

/-- Resolver fixtures: the spec's clean `author`/`book` scenario. -/
def authorW : Entity := ⟨"author", [⟨"id", true, none⟩, ⟨"name", false, none⟩], []⟩

def bookW : Entity :=
  ⟨"book", [⟨"id", true, none⟩, ⟨"title", false, none⟩,
    ⟨"author_id", false, some ("author", "id")⟩], []⟩

def fkFieldW : FieldSpec := ⟨"author_id", false, some ("author", "id")⟩

def regW7 : List Entity := [authorW, bookW]

/-! ## Helper lemmas -/

/-- The column name an operation refers to (`""` for `create_table`). -/
def opColName : Op → String
  | .createTable _ => ""
  | .addColumn _ c _ _ => c
  | .alterColumn _ c _ _ => c
  | .dropColumn _ c => c

theorem map_filterMap_sublist_map {α β γ : Type} (f : α → Option β) (g : β → γ) (h : α → γ)
    (hfg : ∀ a b, f a = some b → g b = h a) :
    ∀ l : List α, ((l.filterMap f).map g).Sublist (l.map h)
  | [] => by simp
  | a :: l => by
    cases hfa : f a with
    | none =>
      simpa [List.filterMap_cons, hfa] using
        (map_filterMap_sublist_map f g h hfg l).cons (h a)
    | some b =>
      have : g b = h a := hfg a b hfa
      simpa [List.filterMap_cons, hfa, this] using
        (map_filterMap_sublist_map f g h hfg l).cons₂ (h a)

theorem ops_in_first_phase_not_drop (t : String) {dcols : List DbColumn} {op : Op}
    {mcols : List ModelColumn}
    (hmem : op ∈ mcols.filterMap (fun c =>
      match dcols.find? (fun d => d.name == c.name) with
      | none => some (Op.addColumn t c.name c.type c.nullable)
      | some d => if c.type ≠ d.type then some (Op.alterColumn t c.name d.type c.type) else none)) :
    op.isDrop = false := by
  obtain ⟨c, -, hc⟩ := List.mem_filterMap.mp hmem
  split at hc
  · cases hc; rfl
  · split at hc
    · cases hc; rfl
    · cases hc

theorem ops_in_second_phase_drop (t : String) {mcols : List ModelColumn} {op : Op}
    {dcols : List DbColumn}
    (hmem : op ∈ dcols.filterMap (fun d =>
      if mcols.all (fun c => c.name ≠ d.name) then some (Op.dropColumn t d.name) else none)) :
    op.isDrop = true := by
  obtain ⟨d, -, hd⟩ := List.mem_filterMap.mp hmem
  split at hd
  · cases hd; rfl
  · cases hd

/-! ## C10 -/

/-- C10: for every call to `init_db`, whatever the `migrate` flag, the
conditional import from the migrations module fails (the two helper names
are not defined there), so `has_migrations` is `False`,
`check_and_migrate_models` is never invoked, and the migration-results
mapping stays empty. -/
theorem c10_init_db_never_migrates (migrate : Bool)
    (checkAndMigrate : Unit → List (String × List Op)) :
    importFromMigrations ["check_and_migrate_models", "_create_table_without_indexes",
      "_create_indexes_one_by_one"] = false ∧
    (init_db migrate checkAndMigrate).has_migrations = false ∧
    (init_db migrate checkAndMigrate).check_invoked = false ∧
    (init_db migrate checkAndMigrate).migration_results = [] := by
  refine ⟨by decide, ?_⟩
  unfold init_db
  simp [show importFromMigrations ["check_and_migrate_models",
    "_create_table_without_indexes", "_create_indexes_one_by_one"] = false from by decide]

/-! ## C9 -/

/-- C9: malformed JSON in a persisted state file is never fatal — loading
the fingerprint store over a corrupt file yields the empty mapping
instead of raising, and recording a migration over a corrupt history file
proceeds from the empty history. -/
theorem c9_corrupt_state_not_fatal :
    _load_model_hashes FileContent.corrupt = [] ∧
    ∀ (model_name : String) (changes : List Op),
      _record_migration model_name changes FileContent.corrupt =
        FileContent.valid [⟨model_name, changes⟩] := by
  exact ⟨rfl, fun _ _ => rfl⟩

/-! ## C2 -/

/-- C2 counterexample: for a model whose column list has a type-modified
column before a brand-new column, the plan places the `alter_column`
before the `add_column`, so not every `add_column` precedes every
`alter_column`.  (The source appends adds and alters in one interleaved
pass over the model's columns.) -/
theorem c2_counterexample :
    ¬ precedesAll Op.isAdd Op.isAlter
      (generate_migration_plan "t" [⟨"x", "INTEGER", true⟩, ⟨"y", "TEXT", true⟩]
        (some [⟨"x", "TEXT"⟩])) := by
  decide

/-- C2 amended: in every plan, every `add_column` and every
`alter_column` operation precedes every `drop_column` operation
(`add_column` and `alter_column` are interleaved in model-column order). -/
theorem c2_amended_adds_alters_before_drops (t : String) (mcols : List ModelColumn)
    (live : Option (List DbColumn)) :
    precedesAll (fun o => o.isAdd || o.isAlter) Op.isDrop
      (generate_migration_plan t mcols live) := by
  intro i hi j hj hp hq
  rw [List.get_eq_getElem] at hp hq
  cases live with
  | none =>
    exfalso
    have h1 : (generate_migration_plan t mcols none).length = 1 := rfl
    have hi0 : i = 0 := by omega
    subst hi0
    simp [generate_migration_plan, Op.isAdd, Op.isAlter] at hp
  | some dcols =>
    have hsplit : generate_migration_plan t mcols (some dcols) =
        (mcols.filterMap (fun c =>
          match dcols.find? (fun d => d.name == c.name) with
          | none => some (Op.addColumn t c.name c.type c.nullable)
          | some d =>
            if c.type ≠ d.type then some (Op.alterColumn t c.name d.type c.type) else none)) ++
        (dcols.filterMap (fun d =>
          if mcols.all (fun c => c.name ≠ d.name) then some (Op.dropColumn t d.name) else none)) :=
      rfl
    rw [List.getElem_of_eq hsplit] at hp hq
    have hlen : (generate_migration_plan t mcols (some dcols)).length = _ :=
      congrArg List.length hsplit
    rw [List.length_append] at hlen
    set p1 := mcols.filterMap (fun c =>
      match dcols.find? (fun d => d.name == c.name) with
      | none => some (Op.addColumn t c.name c.type c.nullable)
      | some d => if c.type ≠ d.type then some (Op.alterColumn t c.name d.type c.type) else none)
      with hp1
    set p2 := dcols.filterMap (fun d =>
      if mcols.all (fun c => c.name ≠ d.name) then some (Op.dropColumn t d.name) else none)
      with hp2
    have hi1 : i < p1.length := by
      by_contra hge
      push_neg at hge
      have hlt : i - p1.length < p2.length := by omega
      rw [List.getElem_append_right hge] at hp
      have hdrop := ops_in_second_phase_drop t (List.getElem_mem hlt)
      cases h2 : p2[i - p1.length] <;> rw [h2] at hp hdrop <;> simp_all [Op.isAdd, Op.isAlter, Op.isDrop]
    have hj1 : p1.length ≤ j := by
      by_contra hlt
      push_neg at hlt
      rw [List.getElem_append_left hlt] at hq
      have hnd := ops_in_first_phase_not_drop t (List.getElem_mem hlt)
      rw [hq] at hnd
      cases hnd
    omega

/-- Closed instance of the amended C2 ordering property. -/
theorem c2_amended_witness :
    precedesAll (fun o => o.isAdd || o.isAlter) Op.isDrop
      (generate_migration_plan "t" [⟨"x", "INTEGER", true⟩, ⟨"y", "TEXT", true⟩]
        (some [⟨"x", "TEXT"⟩, ⟨"z", "TEXT"⟩])) :=
  c2_amended_adds_alters_before_drops "t" [⟨"x", "INTEGER", true⟩, ⟨"y", "TEXT", true⟩]
    (some [⟨"x", "TEXT"⟩, ⟨"z", "TEXT"⟩])

/-! ## C1 -/

theorem nodup_plan_phase1 {t : String} {dcols : List DbColumn} {mcols : List ModelColumn}
    (hm : (mcols.map ModelColumn.name).Nodup) :
    (mcols.filterMap (fun c =>
      match dcols.find? (fun d => d.name == c.name) with
      | none => some (Op.addColumn t c.name c.type c.nullable)
      | some d =>
        if c.type ≠ d.type then some (Op.alterColumn t c.name d.type c.type) else none)).Nodup := by
  refine List.Nodup.of_map opColName ?_
  refine List.Sublist.nodup ?_ hm
  refine map_filterMap_sublist_map _ _ _ ?_ mcols
  intro c op hc
  split at hc
  · cases hc; rfl
  · split at hc
    · cases hc; rfl
    · cases hc

theorem nodup_plan_phase2 {t : String} {mcols : List ModelColumn} {dcols : List DbColumn}
    (hd : (dcols.map DbColumn.name).Nodup) :
    (dcols.filterMap (fun d =>
      if mcols.all (fun c => c.name ≠ d.name) then some (Op.dropColumn t d.name) else none)).Nodup := by
  refine List.Nodup.of_map opColName ?_
  refine List.Sublist.nodup ?_ hd
  refine map_filterMap_sublist_map _ _ _ ?_ dcols
  intro d op hd'
  split at hd'
  · cases hd'; rfl
  · cases hd'

/-- C1: the migration plan is exactly the claimed diff — a single
`create_table` when the table is absent from the live schema; otherwise
one `add_column` per model column absent from the live columns, one
`alter_column` (carrying the old and new type strings) per column present
in both whose type string differs, one `drop_column` per live column
absent from the model, and nothing else.  `Nodup` of the column names
models the uniqueness of dictionary keys in the source. -/
theorem c1_plan_characterization (t : String) (mcols : List ModelColumn) (dcols : List DbColumn)
    (hm : (mcols.map ModelColumn.name).Nodup) (hd : (dcols.map DbColumn.name).Nodup) :
    generate_migration_plan t mcols none = [Op.createTable t] ∧
    (generate_migration_plan t mcols (some dcols)).Nodup ∧
    ∀ op, op ∈ generate_migration_plan t mcols (some dcols) ↔
      ((∃ c ∈ mcols, (∀ d ∈ dcols, d.name ≠ c.name) ∧
          op = Op.addColumn t c.name c.type c.nullable) ∨
       (∃ c ∈ mcols, ∃ d ∈ dcols, d.name = c.name ∧ d.type ≠ c.type ∧
          op = Op.alterColumn t c.name d.type c.type) ∨
       (∃ d ∈ dcols, (∀ c ∈ mcols, c.name ≠ d.name) ∧ op = Op.dropColumn t d.name)) := by
  refine ⟨rfl, ?_, ?_⟩
  · refine List.Nodup.append (nodup_plan_phase1 hm) (nodup_plan_phase2 hd) ?_
    intro op h1 h2
    have := ops_in_first_phase_not_drop t h1
    have := ops_in_second_phase_drop t h2
    simp_all
  · intro op
    show op ∈ _ ++ _ ↔ _
    rw [List.mem_append]
    constructor
    · rintro (h1 | h2)
      · obtain ⟨c, hcmem, hc⟩ := List.mem_filterMap.mp h1
        split at hc
        · rename_i hfind
          cases hc
          refine Or.inl ⟨c, hcmem, ?_, rfl⟩
          intro d hdmem
          simpa using List.find?_eq_none.mp hfind d hdmem
        · rename_i d hfind
          split at hc
          · rename_i hty
            cases hc
            refine Or.inr (Or.inl ⟨c, hcmem, d, List.mem_of_find?_eq_some hfind, ?_, ?_, rfl⟩)
            · simpa using List.find?_some hfind
            · exact fun h => hty h.symm
          · cases hc
      · obtain ⟨d, hdmem, hd'⟩ := List.mem_filterMap.mp h2
        split at hd'
        · rename_i hall
          cases hd'
          refine Or.inr (Or.inr ⟨d, hdmem, ?_, rfl⟩)
          intro c hcmem
          simpa using List.all_eq_true.mp hall c hcmem
        · cases hd'
    · rintro (⟨c, hcmem, habs, rfl⟩ | ⟨c, hcmem, d, hdmem, hname, hty, rfl⟩ | ⟨d, hdmem, habs, rfl⟩)
      · refine Or.inl (List.mem_filterMap.mpr ⟨c, hcmem, ?_⟩)
        have hfind : dcols.find? (fun d => d.name == c.name) = none := by
          refine List.find?_eq_none.mpr ?_
          intro d hdmem
          simpa using habs d hdmem
        simp only [hfind]
      · refine Or.inl (List.mem_filterMap.mpr ⟨c, hcmem, ?_⟩)
        cases hfind : dcols.find? (fun x => x.name == c.name) with
        | none =>
          exact absurd (by simpa using hname) (by simpa using List.find?_eq_none.mp hfind d hdmem)
        | some d' =>
          have hd'mem := List.mem_of_find?_eq_some hfind
          have hd'name : d'.name = c.name := by simpa using List.find?_some hfind
          have hdd : d' = d := by
            refine List.inj_on_of_nodup_map hd hd'mem hdmem ?_
            show d'.name = d.name
            rw [hd'name, hname]
          subst hdd
          simp only [hfind]
          rw [if_pos (show c.type ≠ d'.type from fun h => hty h.symm)]
      · refine Or.inr (List.mem_filterMap.mpr ⟨d, hdmem, ?_⟩)
        have hall : mcols.all (fun c => c.name ≠ d.name) = true := by
          refine List.all_eq_true.mpr ?_
          intro c hcmem
          simpa using habs c hcmem
        simp only [hall, if_pos]

/-- Closed instance of C1: a live schema containing the `create_table`
case and the three diff cases. -/
theorem c1_witness :
    generate_migration_plan "t" [⟨"a", "INTEGER", false⟩] none = [Op.createTable "t"] ∧
    Op.addColumn "t" "b" "TEXT" true ∈
      generate_migration_plan "t" [⟨"a", "INTEGER", false⟩, ⟨"b", "TEXT", true⟩]
        (some [⟨"a", "TEXT"⟩, ⟨"c", "TEXT"⟩]) := by
  have h := c1_plan_characterization "t" [⟨"a", "INTEGER", false⟩, ⟨"b", "TEXT", true⟩]
    [⟨"a", "TEXT"⟩, ⟨"c", "TEXT"⟩] (by decide) (by decide)
  refine ⟨(c1_plan_characterization "t" [⟨"a", "INTEGER", false⟩] []
    (by decide) (by decide)).1, ?_⟩
  refine (h.2.2 (Op.addColumn "t" "b" "TEXT" true)).mpr ?_
  refine Or.inl ⟨⟨"b", "TEXT", true⟩, by decide, by decide, rfl⟩

/-! ## C5 -/

theorem dictFind_filterMap_eq {α β : Type} (name : α → String)
    (g : α → Option (String × β)) (hkey : ∀ m e, g m = some e → e.1 = name m) :
    ∀ (models : List α), ((models.map name).Nodup) → ∀ m ∈ models,
      dictFind (models.filterMap g) (name m) = g m
  | [], _, m, hm => absurd hm (List.not_mem_nil m)
  | m0 :: rest, hnd, m, hm => by
    have hnd' : ((rest.map name)).Nodup := (List.nodup_cons.mp (by simpa using hnd)).2
    have h0 : name m0 ∉ rest.map name := (List.nodup_cons.mp (by simpa using hnd)).1
    rcases List.mem_cons.mp hm with rfl | hmr
    · cases hg : g m with
      | some e =>
        have he : e.1 = name m := hkey m e hg
        simp only [List.filterMap_cons, hg, dictFind]
        rw [List.find?_cons_of_pos _ (by simpa using he)]
      | none =>
        simp only [List.filterMap_cons, hg, dictFind]
        refine List.find?_eq_none.mpr ?_
        intro e hemem
        obtain ⟨m', hm', hg'⟩ := List.mem_filterMap.mp hemem
        have : e.1 = name m' := hkey m' e hg'
        have : name m' ≠ name m := by
          intro hcontra
          exact h0 (hcontra ▸ List.mem_map_of_mem name hm')
        simp only [beq_iff_eq]
        intro hcontra
        exact this (by rw [← hcontra]; exact (hkey m' e hg').symm ▸ rfl)
    · have hne : name m ≠ name m0 := by
        intro hcontra
        exact h0 (hcontra ▸ List.mem_map_of_mem name hmr)
      cases hg : g m0 with
      | some e =>
        have he : e.1 = name m0 := hkey m0 e hg
        simp only [List.filterMap_cons, hg, dictFind]
        rw [List.find?_cons_of_neg _ (by simp only [he, beq_iff_eq]; exact fun h => hne h.symm)]
        exact dictFind_filterMap_eq name g hkey rest hnd' m hmr
      | none =>
        simp only [List.filterMap_cons, hg]
        exact dictFind_filterMap_eq name g hkey rest hnd' m hmr

theorem dictFind_filterMap_not_mem {α β : Type} (name : α → String)
    (g : α → Option (String × β)) (hkey : ∀ m e, g m = some e → e.1 = name m)
    (models : List α) (n : String) (hn : n ∉ models.map name) :
    dictFind (models.filterMap g) n = none := by
  refine List.find?_eq_none.mpr ?_
  intro e hemem
  obtain ⟨m', hm', hg'⟩ := List.mem_filterMap.mp hemem
  have he : e.1 = name m' := hkey m' e hg'
  simp only [beq_iff_eq]
  intro hcontra
  exact hn (hcontra ▸ he ▸ List.mem_map_of_mem name hm')

/-- The per-model entry generator inside `detect_model_changes`. -/
def detectEntry (stored : List (String × HashVal)) (m : ModelDesc) :
    Option (String × ChangeStatus) :=
  match dictFind stored m.name with
  | none => some (m.name, ChangeStatus.isNew (_get_model_hash m))
  | some p =>
    if p.2 ≠ _get_model_hash m then
      some (m.name, ChangeStatus.isModified p.2 (_get_model_hash m))
    else none

theorem detect_model_changes_eq (models : List ModelDesc) (files : MigFiles) :
    detect_model_changes models files =
      (models.filterMap (detectEntry (_load_model_hashes files.hashFile)), files) := rfl

/-- C5: `detect_model_changes` returns the file state untouched and its
status map holds exactly the claimed entries — `new` with the current
hash for models without a stored fingerprint, `modified` with the old and
new hashes for models whose stored fingerprint differs from the current
one, no entry for unchanged models, and no entries besides the models'. -/
theorem c5_detect_changes (models : List ModelDesc) (files : MigFiles)
    (hnd : (models.map ModelDesc.name).Nodup) :
    (detect_model_changes models files).2 = files ∧
    (∀ m ∈ models,
      (dictFind (_load_model_hashes files.hashFile) m.name = none →
        dictFind (detect_model_changes models files).1 m.name =
          some (m.name, ChangeStatus.isNew (_get_model_hash m))) ∧
      (∀ p, dictFind (_load_model_hashes files.hashFile) m.name = some p →
        (p.2 ≠ _get_model_hash m →
          dictFind (detect_model_changes models files).1 m.name =
            some (m.name, ChangeStatus.isModified p.2 (_get_model_hash m))) ∧
        (p.2 = _get_model_hash m →
          dictFind (detect_model_changes models files).1 m.name = none))) ∧
    (∀ n, n ∉ models.map ModelDesc.name →
      dictFind (detect_model_changes models files).1 n = none) := by
  have hkey : ∀ m e, detectEntry (_load_model_hashes files.hashFile) m = some e →
      e.1 = m.name := by
    intro m e hg
    unfold detectEntry at hg
    split at hg
    · cases hg; rfl
    · split at hg
      · cases hg; rfl
      · cases hg
  refine ⟨rfl, ?_, ?_⟩
  · intro m hm
    have hfind : dictFind (detect_model_changes models files).1 m.name =
        detectEntry (_load_model_hashes files.hashFile) m := by
      rw [detect_model_changes_eq]
      exact dictFind_filterMap_eq ModelDesc.name _ hkey models hnd m hm
    refine ⟨?_, ?_⟩
    · intro hnone
      rw [hfind]
      unfold detectEntry
      simp only [hnone]
    · intro p hsome
      refine ⟨?_, ?_⟩
      · intro hne
        rw [hfind]
        unfold detectEntry
        simp only [hsome]
        rw [if_pos hne]
      · intro heq
        rw [hfind]
        unfold detectEntry
        simp only [hsome]
        rw [if_neg (by simpa using heq)]
  · intro n hn
    rw [detect_model_changes_eq]
    exact dictFind_filterMap_not_mem ModelDesc.name _ hkey models n hn

/-! ## C6 -/

theorem sortByKey_perm {α : Type} (l : List (String × α)) : (sortByKey l).Perm l :=
  List.perm_insertionSort keyLe l

theorem sortByKey_sorted {α : Type} (l : List (String × α)) :
    List.Sorted keyLe (sortByKey l) :=
  List.sorted_insertionSort keyLe l

theorem sorted_keyLt_of_nodup_keys {α : Type} (l : List (String × α))
    (hs : List.Sorted keyLe l) (hnd : (l.map Prod.fst).Nodup) :
    List.Sorted keyLt l := by
  have hne : l.Pairwise (fun a b => a.1 ≠ b.1) := List.pairwise_map.mp hnd
  refine (hs.and hne).imp ?_
  rintro a b ⟨hle, hneq⟩
  exact lt_of_le_of_ne hle hneq

theorem sortByKey_eq_iff_perm {α : Type} (l l' : List (String × α))
    (h : (l.map Prod.fst).Nodup) (h' : (l'.map Prod.fst).Nodup) :
    sortByKey l = sortByKey l' ↔ l.Perm l' := by
  constructor
  · intro heq
    have h1 : l.Perm (sortByKey l) := (sortByKey_perm l).symm
    rw [heq] at h1
    exact h1.trans (sortByKey_perm l')
  · intro hperm
    have hp : (sortByKey l).Perm (sortByKey l') :=
      ((sortByKey_perm l).trans hperm).trans (sortByKey_perm l').symm
    have hnd1 : ((sortByKey l).map Prod.fst).Nodup :=
      (((sortByKey_perm l).map Prod.fst).nodup_iff).mpr h
    have hnd2 : ((sortByKey l').map Prod.fst).Nodup :=
      (((sortByKey_perm l').map Prod.fst).nodup_iff).mpr h'
    haveI : IsAntisymm (String × α) keyLt :=
      ⟨fun a b h1 h2 => absurd (lt_trans h1 h2) (lt_irrefl _)⟩
    exact List.eq_of_perm_of_sorted hp
      (sorted_keyLt_of_nodup_keys _ (sortByKey_sorted l) hnd1)
      (sorted_keyLt_of_nodup_keys _ (sortByKey_sorted l') hnd2)

/-- C6 counterexample: two models identical in every aspect the claim
enumerates (table name; field type, nullability, primary-key and unique
flags, foreign-key references; relationship targets and back-references)
but with different column defaults have different fingerprints —
`_get_model_hash` also serializes `str(column.default)`, so the
fingerprint changes without any change to the claim's listed structure. -/
theorem c6_counterexample :
    (ModelDesc.table_name ⟨"M", "m", [("x", ⟨"INTEGER", true, false, none, none, []⟩)], none⟩ =
       ModelDesc.table_name ⟨"M", "m", [("x", ⟨"INTEGER", true, false, some "0", none, []⟩)], none⟩ ∧
     (ModelDesc.fields ⟨"M", "m", [("x", ⟨"INTEGER", true, false, none, none, []⟩)], none⟩).map
        (fun p => (p.1, p.2.type, p.2.nullable, p.2.primary_key, p.2.unique, p.2.foreign_keys)) =
       (ModelDesc.fields ⟨"M", "m", [("x", ⟨"INTEGER", true, false, some "0", none, []⟩)], none⟩).map
        (fun p => (p.1, p.2.type, p.2.nullable, p.2.primary_key, p.2.unique, p.2.foreign_keys)) ∧
     ModelDesc.relationships ⟨"M", "m", [("x", ⟨"INTEGER", true, false, none, none, []⟩)], none⟩ =
       ModelDesc.relationships ⟨"M", "m", [("x", ⟨"INTEGER", true, false, some "0", none, []⟩)], none⟩) ∧
    _get_model_hash ⟨"M", "m", [("x", ⟨"INTEGER", true, false, none, none, []⟩)], none⟩ ≠
      _get_model_hash ⟨"M", "m", [("x", ⟨"INTEGER", true, false, some "0", none, []⟩)], none⟩ := by
  refine ⟨⟨rfl, rfl, rfl⟩, by decide⟩

/-- C6 amended: the fingerprint is deterministic and structure-faithful
for the structure `_get_model_hash` actually serializes — two models have
equal fingerprints if and only if they have the same table name and the
same fields and relationships up to re-ordering, where a field's identity
includes its default value and a relationship's identity includes its
link model and relationship-argument string in addition to the aspects
the claim lists.  In particular the fingerprint is stable under
re-ordering of fields and relationships (keys are sorted before hashing)
and identical across repeated computations. -/
theorem c6_amended_hash_characterization (m m' : ModelDesc)
    (hf : (m.fields.map Prod.fst).Nodup) (hf' : (m'.fields.map Prod.fst).Nodup)
    (hr : ∀ rl, m.relationships = some rl → (rl.map Prod.fst).Nodup)
    (hr' : ∀ rl, m'.relationships = some rl → (rl.map Prod.fst).Nodup) :
    _get_model_hash m = _get_model_hash m' ↔
      (m.table_name = m'.table_name ∧ m.fields.Perm m'.fields ∧
       relsPerm m.relationships m'.relationships) := by
  unfold _get_model_hash
  rw [HashVal.mk.injEq]
  constructor
  · rintro ⟨ht, hfields, hrels⟩
    refine ⟨ht, (sortByKey_eq_iff_perm _ _ hf hf').mp hfields, ?_⟩
    cases hm : m.relationships with
    | none =>
      cases hm' : m'.relationships with
      | none => trivial
      | some rl' => rw [hm, hm'] at hrels; cases hrels
    | some rl =>
      cases hm' : m'.relationships with
      | none => rw [hm, hm'] at hrels; cases hrels
      | some rl' =>
        rw [hm, hm'] at hrels
        simp only [Option.map_some', Option.some.injEq] at hrels
        show rl.Perm rl'
        exact (sortByKey_eq_iff_perm _ _ (hr rl hm) (hr' rl' hm')).mp hrels
  · rintro ⟨ht, hfields, hrels⟩
    refine ⟨ht, (sortByKey_eq_iff_perm _ _ hf hf').mpr hfields, ?_⟩
    cases hm : m.relationships with
    | none =>
      cases hm' : m'.relationships with
      | none => rfl
      | some rl' => rw [hm, hm'] at hrels; cases hrels
    | some rl =>
      cases hm' : m'.relationships with
      | none => rw [hm, hm'] at hrels; cases hrels
      | some rl' =>
        rw [hm, hm'] at hrels
        simp only [Option.map_some', Option.some.injEq]
        exact (sortByKey_eq_iff_perm _ _ (hr rl hm) (hr' rl' hm')).mpr hrels

/-- Closed instance of the amended C6: re-ordering a model's fields and
relationships leaves the fingerprint unchanged. -/
theorem c6_amended_witness :
    _get_model_hash ⟨"M", "m", [("a", fidPK), ("b", ⟨"TEXT", true, false, none, none, []⟩)],
        some [("r", ⟨"T", some "ms", none, "()"⟩), ("s", ⟨"U", none, none, "()"⟩)]⟩ =
      _get_model_hash ⟨"M", "m", [("b", ⟨"TEXT", true, false, none, none, []⟩), ("a", fidPK)],
        some [("s", ⟨"U", none, none, "()"⟩), ("r", ⟨"T", some "ms", none, "()"⟩)]⟩ := by
  refine (c6_amended_hash_characterization _ _ (by decide) (by decide) ?_ ?_).mpr ?_
  · intro rl h
    cases h
    decide
  · intro rl h
    cases h
    decide
  · refine ⟨rfl, ?_, ?_⟩
    · decide
    · show (List.Perm _ _)
      decide

/-! ## C8 helper lemmas -/

theorem string_append_s_cancel {a b : String} (h : a ++ "s" = b ++ "s") : a = b := by
  have hd : (a ++ "s").data = (b ++ "s").data := congrArg String.data h
  rw [String.data_append, String.data_append] at hd
  have hud := List.append_cancel_right hd
  cases a with
  | mk d1 =>
    cases b with
    | mk d2 => exact congrArg String.mk (by simpa using hud)

theorem find?_eq_some_of_unique {α : Type} (p : α → Bool) :
    ∀ (l : List α) (x : α), x ∈ l → p x = true → (∀ y ∈ l, p y = true → y = x) →
      l.find? p = some x
  | [], x, hx, _, _ => absurd hx (List.not_mem_nil x)
  | a :: l, x, hx, hpx, huniq => by
    cases hpa : p a with
    | true =>
      rw [List.find?_cons_of_pos _ hpa]
      exact congrArg some (huniq a (List.mem_cons_self a l) hpa)
    | false =>
      rw [List.find?_cons_of_neg _ (fun hcontra => by simp [hpa] at hcontra)]
      have hxl : x ∈ l := by
        rcases List.mem_cons.mp hx with rfl | hxl
        · rw [hpa] at hpx; cases hpx
        · exact hxl
      exact find?_eq_some_of_unique p l x hxl hpx
        (fun y hy hpy => huniq y (List.mem_cons_of_mem a hy) hpy)

theorem two_mem_length_ge {α : Type} : ∀ {l : List α} {a b : α},
    a ∈ l → b ∈ l → a ≠ b → 2 ≤ l.length
  | [], a, _, ha, _, _ => absurd ha (List.not_mem_nil a)
  | [x], a, b, ha, hb, hne => by
    have ha' : a = x := by simpa using ha
    have hb' : b = x := by simpa using hb
    exact absurd (ha'.trans hb'.symm) hne
  | _ :: _ :: _, _, _, _, _, _ => by simp only [List.length_cons]; omega

theorem two_mem_dedup_length_ge {α : Type} [DecidableEq α] {l : List α} {a b : α}
    (ha : a ∈ l) (hb : b ∈ l) (hne : a ≠ b) : 2 ≤ l.dedup.length :=
  two_mem_length_ge (List.mem_dedup.mpr ha) (List.mem_dedup.mpr hb) hne

theorem dictFind_append {α : Type} (l₁ l₂ : List (String × α)) (k : String) :
    dictFind (l₁ ++ l₂) k = (dictFind l₁ k).or (dictFind l₂ k) := by
  unfold dictFind
  rw [List.find?_append]

theorem dictFind_replace_of_any {α : Type} {k : String} {v : α} :
    ∀ (l : List (String × α)), l.any (fun p => p.1 == k) = true →
      dictFind (l.map (fun p => if p.1 == k then (k, v) else p)) k = some (k, v)
  | [], h => by cases h
  | p :: t, h => by
    by_cases hp : p.1 = k
    · have hpk : (p.1 == k) = true := by simpa using hp
      unfold dictFind
      simp only [List.map_cons, hpk, if_true]
      rw [List.find?_cons_of_pos _ (by simp)]
    · have hpk : (p.1 == k) = false := by simpa using hp
      have ht : t.any (fun p => p.1 == k) = true := by
        simp only [List.any_cons, hpk, Bool.false_or] at h
        exact h
      unfold dictFind
      simp only [List.map_cons, hpk, Bool.false_eq_true, if_false]
      rw [List.find?_cons_of_neg _ (fun hcontra => by simp [hpk] at hcontra)]
      exact dictFind_replace_of_any t ht

theorem dictFind_replace_ne {α : Type} {k k' : String} {v : α} (hne : k' ≠ k) :
    ∀ (l : List (String × α)),
      dictFind (l.map (fun p => if p.1 == k then (k, v) else p)) k' = dictFind l k'
  | [] => rfl
  | p :: t => by
    by_cases hp : p.1 = k
    · have hpk : (p.1 == k) = true := by simpa using hp
      unfold dictFind
      simp only [List.map_cons, hpk, if_true]
      rw [List.find?_cons_of_neg _ (fun hcontra => by
            simp at hcontra; exact hne hcontra.symm),
        List.find?_cons_of_neg _ (fun hcontra => by
            simp at hcontra; rw [hp] at hcontra; exact hne hcontra.symm)]
      exact dictFind_replace_ne hne t
    · have hpk : (p.1 == k) = false := by simpa using hp
      unfold dictFind
      simp only [List.map_cons, hpk, Bool.false_eq_true, if_false]
      by_cases hp' : p.1 = k'
      · rw [List.find?_cons_of_pos _ (by simpa using hp'),
          List.find?_cons_of_pos _ (by simpa using hp')]
      · rw [List.find?_cons_of_neg _ (fun hcontra => by simp at hcontra; exact hp' hcontra),
          List.find?_cons_of_neg _ (fun hcontra => by simp at hcontra; exact hp' hcontra)]
        exact dictFind_replace_ne hne t

theorem dictFind_eq_none_of_not_any {α : Type} {k : String} {l : List (String × α)}
    (h : l.any (fun p => p.1 == k) = false) : dictFind l k = none := by
  refine List.find?_eq_none.mpr ?_
  intro p hp
  have := (List.any_eq_false.mp h) p hp
  simpa using this

theorem dictFind_dictSet_self {α : Type} (l : List (String × α)) (k : String) (v : α) :
    dictFind (dictSet l k v) k = some (k, v) := by
  unfold dictSet
  split
  · rename_i hany
    exact dictFind_replace_of_any l hany
  · rename_i hany
    have hany2 : l.any (fun p => p.1 == k) = false := Bool.eq_false_iff.mpr hany
    rw [dictFind_append, dictFind_eq_none_of_not_any hany2]
    unfold dictFind
    rw [List.find?_cons_of_pos _ (by simp)]
    rfl

theorem dictFind_dictSet_ne {α : Type} (l : List (String × α)) (k k' : String) (v : α)
    (hne : k' ≠ k) : dictFind (dictSet l k v) k' = dictFind l k' := by
  unfold dictSet
  split
  · exact dictFind_replace_ne hne l
  · rw [dictFind_append]
    have h1 : dictFind [(k, v)] k' = none := by
      unfold dictFind
      rw [List.find?_cons_of_neg _ (fun hcontra => by simp at hcontra; exact hne hcontra.symm)]
      rfl
    rw [h1]
    cases dictFind l k' <;> rfl

/-! ## C8 -/

theorem singularPass_rel_mono (reg : List VizModel) :
    ∀ (fks : List (String × String)) (vf : List (String × VirtualField)) (os : List String)
      (x : String), x ∈ os → x ∈ (singularPass reg fks vf os).2
  | [], _, _, _, hx => hx
  | (f, t) :: rest, vf, os, x, hx => by
    unfold singularPass
    cases hft : fkTable t with
    | none =>
      dsimp only
      exact singularPass_rel_mono reg rest vf os x hx
    | some tt =>
      dsimp only
      cases hfind : reg.find? (fun cls => (lowerStr cls.table_name) == (lowerStr tt)) with
      | none =>
        dsimp only
        exact singularPass_rel_mono reg rest vf os x hx
      | some cls =>
        dsimp only
        have hx' : x ∈ (if cls.name ∈ os then os else os ++ [cls.name]) := by
          split
          · exact hx
          · exact List.mem_append_left _ hx
        split
        · exact singularPass_rel_mono reg rest vf _ x hx'
        · exact singularPass_rel_mono reg rest _ _ x hx'

theorem singularPass_rel_mem (reg : List VizModel) :
    ∀ (fks : List (String × String)) (vf : List (String × VirtualField)) (os : List String)
      (f t tt : String) (m : VizModel), (f, t) ∈ fks → fkTable t = some tt →
      reg.find? (fun cls => (lowerStr cls.table_name) == (lowerStr tt)) = some m →
      m.name ∈ (singularPass reg fks vf os).2
  | [], _, _, f, t, _, _, hmem, _, _ => absurd hmem (List.not_mem_nil (f, t))
  | (f0, t0) :: rest, vf, os, f, t, tt, m, hmem, hft, hfind => by
    rcases List.mem_cons.mp hmem with heq | hmem'
    · cases heq
      unfold singularPass
      rw [hft]
      dsimp only
      rw [hfind]
      dsimp only
      have hself : m.name ∈ (if m.name ∈ os then os else os ++ [m.name]) := by
        split
        · assumption
        · exact List.mem_append_right _ (List.mem_singleton.mpr rfl)
      split
      · exact singularPass_rel_mono reg rest vf _ m.name hself
      · exact singularPass_rel_mono reg rest _ _ m.name hself
    · unfold singularPass
      cases hft0 : fkTable t0 with
      | none =>
        dsimp only
        exact singularPass_rel_mem reg rest vf os f t tt m hmem' hft hfind
      | some tt0 =>
        dsimp only
        cases hfind0 : reg.find? (fun cls => (lowerStr cls.table_name) == (lowerStr tt0)) with
        | none =>
          dsimp only
          exact singularPass_rel_mem reg rest vf os f t tt m hmem' hft hfind
        | some cls0 =>
          dsimp only
          split
          · exact singularPass_rel_mem reg rest vf _ f t tt m hmem' hft hfind
          · exact singularPass_rel_mem reg rest _ _ f t tt m hmem' hft hfind

theorem singularPass_entries (reg : List VizModel) :
    ∀ (fks : List (String × String)) (vf : List (String × VirtualField)) (os : List String)
      (e : String × VirtualField), e ∈ (singularPass reg fks vf os).1 →
      e ∈ vf ∨ e.2.is_list = false
  | [], _, _, e, he => Or.inl he
  | (f0, t0) :: rest, vf, os, e, he => by
    unfold singularPass at he
    cases hft0 : fkTable t0 with
    | none =>
      rw [hft0] at he
      dsimp only at he
      exact singularPass_entries reg rest vf os e he
    | some tt0 =>
      rw [hft0] at he
      dsimp only at he
      cases hfind0 : reg.find? (fun cls => (lowerStr cls.table_name) == (lowerStr tt0)) with
      | none =>
        rw [hfind0] at he
        dsimp only at he
        exact singularPass_entries reg rest vf os e he
      | some cls0 =>
        rw [hfind0] at he
        dsimp only at he
        split at he
        · exact singularPass_entries reg rest vf _ e he
        · rcases singularPass_entries reg rest _ _ e he with hin | hflat
          · rcases List.mem_append.mp hin with hin' | hin'
            · exact Or.inl hin'
            · refine Or.inr ?_
              have : e = (relFieldName f0, ⟨cls0.name, false, cls0.name⟩) := by simpa using hin'
              rw [this]
          · exact Or.inr hflat

theorem junctionRefs_others_mono (reg : List VizModel) (tn : String) :
    ∀ (fks : List (String × String)) (b : Bool) (os : List String) (x : String),
      x ∈ os → x ∈ (junctionRefs reg tn fks b os).2
  | [], _, _, _, hx => hx
  | (f0, t0) :: rest, b, os, x, hx => by
    unfold junctionRefs
    cases hft : fkTable t0 with
    | none =>
      dsimp only
      exact junctionRefs_others_mono reg tn rest b os x hx
    | some tt =>
      dsimp only
      split
      · exact junctionRefs_others_mono reg tn rest true os x hx
      · cases hfind : reg.find? (fun o => o.table_name == tt) with
        | none =>
          dsimp only
          exact junctionRefs_others_mono reg tn rest b os x hx
        | some o =>
          dsimp only
          have hx' : x ∈ (if o.name ∈ os then os else os ++ [o.name]) := by
            split
            · exact hx
            · exact List.mem_append_left _ hx
          exact junctionRefs_others_mono reg tn rest b _ x hx'

theorem junctionRefs_true_stays (reg : List VizModel) (tn : String) :
    ∀ (fks : List (String × String)) (os : List String),
      (junctionRefs reg tn fks true os).1 = true
  | [], _ => rfl
  | (f0, t0) :: rest, os => by
    unfold junctionRefs
    cases hft : fkTable t0 with
    | none =>
      dsimp only
      exact junctionRefs_true_stays reg tn rest os
    | some tt =>
      dsimp only
      split
      · exact junctionRefs_true_stays reg tn rest os
      · cases hfind : reg.find? (fun o => o.table_name == tt) with
        | none =>
          dsimp only
          exact junctionRefs_true_stays reg tn rest os
        | some o =>
          dsimp only
          exact junctionRefs_true_stays reg tn rest _

theorem junctionRefs_referenced (reg : List VizModel) (tn : String) :
    ∀ (fks : List (String × String)) (b : Bool) (os : List String) (f tgt : String),
      (f, tgt) ∈ fks → fkTable tgt = some tn →
      (junctionRefs reg tn fks b os).1 = true
  | [], _, _, f, tgt, hmem, _ => absurd hmem (List.not_mem_nil (f, tgt))
  | (f0, t0) :: rest, b, os, f, tgt, hmem, hft => by
    rcases List.mem_cons.mp hmem with heq | hmem'
    · cases heq
      unfold junctionRefs
      rw [hft]
      dsimp only
      rw [if_pos (by simp)]
      exact junctionRefs_true_stays reg tn rest os
    · unfold junctionRefs
      cases hft0 : fkTable t0 with
      | none =>
        dsimp only
        exact junctionRefs_referenced reg tn rest b os f tgt hmem' hft
      | some tt0 =>
        dsimp only
        split
        · exact junctionRefs_referenced reg tn rest true os f tgt hmem' hft
        · cases hfind : reg.find? (fun o => o.table_name == tt0) with
          | none =>
            dsimp only
            exact junctionRefs_referenced reg tn rest b os f tgt hmem' hft
          | some o =>
            dsimp only
            exact junctionRefs_referenced reg tn rest b _ f tgt hmem' hft

theorem junctionRefs_others_mem (reg : List VizModel) (tn : String) :
    ∀ (fks : List (String × String)) (b : Bool) (os : List String) (f2 t2 tt : String)
      (m : VizModel), (f2, t2) ∈ fks → fkTable t2 = some tt → tt ≠ tn →
      reg.find? (fun o => o.table_name == tt) = some m →
      m.name ∈ (junctionRefs reg tn fks b os).2
  | [], _, _, f2, t2, _, _, hmem, _, _, _ => absurd hmem (List.not_mem_nil (f2, t2))
  | (f0, t0) :: rest, b, os, f2, t2, tt, m, hmem, hft, hne, hfind => by
    rcases List.mem_cons.mp hmem with heq | hmem'
    · cases heq
      unfold junctionRefs
      rw [hft]
      dsimp only
      rw [if_neg (by simpa using hne)]
      rw [hfind]
      dsimp only
      have hself : m.name ∈ (if m.name ∈ os then os else os ++ [m.name]) := by
        split
        · assumption
        · exact List.mem_append_right _ (List.mem_singleton.mpr rfl)
      exact junctionRefs_others_mono reg tn rest b _ m.name hself
    · unfold junctionRefs
      cases hft0 : fkTable t0 with
      | none =>
        dsimp only
        exact junctionRefs_others_mem reg tn rest b os f2 t2 tt m hmem' hft hne hfind
      | some tt0 =>
        dsimp only
        split
        · exact junctionRefs_others_mem reg tn rest true os f2 t2 tt m hmem' hft hne hfind
        · cases hfind0 : reg.find? (fun o => o.table_name == tt0) with
          | none =>
            dsimp only
            exact junctionRefs_others_mem reg tn rest b os f2 t2 tt m hmem' hft hne hfind
          | some o =>
            dsimp only
            exact junctionRefs_others_mem reg tn rest b _ f2 t2 tt m hmem' hft hne hfind

theorem junctionRefs_others_sources (reg : List VizModel) (tn : String) :
    ∀ (fks : List (String × String)) (b : Bool) (os : List String) (x : String),
      x ∈ (junctionRefs reg tn fks b os).2 → x ∈ os ∨ ∃ m ∈ reg, x = m.name
  | [], _, _, x, hx => Or.inl hx
  | (f0, t0) :: rest, b, os, x, hx => by
    unfold junctionRefs at hx
    cases hft0 : fkTable t0 with
    | none =>
      rw [hft0] at hx
      dsimp only at hx
      exact junctionRefs_others_sources reg tn rest b os x hx
    | some tt0 =>
      rw [hft0] at hx
      dsimp only at hx
      split at hx
      · exact junctionRefs_others_sources reg tn rest true os x hx
      · cases hfind0 : reg.find? (fun o => o.table_name == tt0) with
        | none =>
          rw [hfind0] at hx
          dsimp only at hx
          exact junctionRefs_others_sources reg tn rest b os x hx
        | some o =>
          rw [hfind0] at hx
          dsimp only at hx
          rcases junctionRefs_others_sources reg tn rest b _ x hx with hin | hsrc
          · split at hin
            · exact Or.inl hin
            · rcases List.mem_append.mp hin with hin' | hin'
              · exact Or.inl hin'
              · refine Or.inr ⟨o, List.mem_of_find?_eq_some hfind0, by simpa using hin'⟩
          · exact Or.inr hsrc

theorem foldl_dictSet_preserve :
    ∀ (others : List String) (acc : List (String × VirtualField)) (k : String)
      (v : VirtualField), dictFind acc k = some (k, v) →
      (∀ o ∈ others, (lowerStr o) ++ "s" = k →
        VirtualField.mk ("List[" ++ o ++ "]") true o = v) →
      dictFind (others.foldl (fun acc other =>
        dictSet acc ((lowerStr other) ++ "s") ⟨"List[" ++ other ++ "]", true, other⟩) acc) k =
        some (k, v)
  | [], acc, k, v, hacc, _ => hacc
  | o :: rest, acc, k, v, hacc, hw => by
    rw [List.foldl_cons]
    by_cases hko : (lowerStr o) ++ "s" = k
    · have hv : VirtualField.mk ("List[" ++ o ++ "]") true o = v :=
        hw o (List.mem_cons_self o rest) hko
      refine foldl_dictSet_preserve rest _ k v ?_
        (fun o' ho' hk' => hw o' (List.mem_cons_of_mem o ho') hk')
      rw [hko, hv]
      exact dictFind_dictSet_self acc k v
    · refine foldl_dictSet_preserve rest _ k v ?_
        (fun o' ho' hk' => hw o' (List.mem_cons_of_mem o ho') hk')
      rw [dictFind_dictSet_ne _ _ _ _ (fun h => hko h.symm)]
      exact hacc

theorem foldl_dictSet_establish :
    ∀ (others : List String) (acc : List (String × VirtualField)) (k : String)
      (v : VirtualField), (∃ o ∈ others, (lowerStr o) ++ "s" = k) →
      (∀ o ∈ others, (lowerStr o) ++ "s" = k →
        VirtualField.mk ("List[" ++ o ++ "]") true o = v) →
      dictFind (others.foldl (fun acc other =>
        dictSet acc ((lowerStr other) ++ "s") ⟨"List[" ++ other ++ "]", true, other⟩) acc) k =
        some (k, v)
  | [], _, k, v, hex, _ => by
    obtain ⟨o, ho, -⟩ := hex
    exact absurd ho (List.not_mem_nil o)
  | o :: rest, acc, k, v, hex, hw => by
    rw [List.foldl_cons]
    by_cases hko : (lowerStr o) ++ "s" = k
    · have hv : VirtualField.mk ("List[" ++ o ++ "]") true o = v :=
        hw o (List.mem_cons_self o rest) hko
      refine foldl_dictSet_preserve rest _ k v ?_
        (fun o' ho' hk' => hw o' (List.mem_cons_of_mem o ho') hk')
      rw [hko, hv]
      exact dictFind_dictSet_self acc k v
    · obtain ⟨o', ho', hk'⟩ := hex
      rcases List.mem_cons.mp ho' with rfl | ho''
      · exact absurd hk' hko
      · exact foldl_dictSet_establish rest _ k v ⟨o', ho'', hk'⟩
          (fun o2 ho2 hk2 => hw o2 (List.mem_cons_of_mem o ho2) hk2)

theorem jpv_preserve (reg : List VizModel) (model : VizModel) :
    ∀ (l : List VizModel) (vf : List (String × VirtualField)) (k : String)
      (v : VirtualField), dictFind vf k = some (k, v) →
      (∀ x, (∃ m ∈ reg, x = m.name) → (lowerStr x) ++ "s" = k →
        VirtualField.mk ("List[" ++ x ++ "]") true x = v) →
      dictFind (junctionPassViz reg model l vf) k = some (k, v)
  | [], vf, k, v, hvf, _ => hvf
  | j :: rest, vf, k, v, hvf, hw => by
    unfold junctionPassViz
    split
    · exact jpv_preserve reg model rest vf k v hvf hw
    · split
      · exact jpv_preserve reg model rest vf k v hvf hw
      · dsimp only
        split
        · refine jpv_preserve reg model rest _ k v ?_ hw
          refine foldl_dictSet_preserve _ vf k v hvf ?_
          intro o ho hko
          rcases junctionRefs_others_sources reg model.table_name j.fks false [] o ho with
            hin | hsrc
          · cases hin
          · exact hw o hsrc hko
        · exact jpv_preserve reg model rest vf k v hvf hw

theorem jpv_establish (reg : List VizModel) (model : VizModel) :
    ∀ (l : List VizModel) (vf : List (String × VirtualField)) (k : String)
      (v : VirtualField) (J : VizModel), J ∈ l → J ≠ model → 2 ≤ J.fks.length →
      (junctionRefs reg model.table_name J.fks false []).1 = true →
      (∃ o ∈ (junctionRefs reg model.table_name J.fks false []).2, (lowerStr o) ++ "s" = k) →
      (∀ x, (∃ m ∈ reg, x = m.name) → (lowerStr x) ++ "s" = k →
        VirtualField.mk ("List[" ++ x ++ "]") true x = v) →
      dictFind (junctionPassViz reg model l vf) k = some (k, v)
  | [], _, k, v, J, hJ, _, _, _, _, _ => absurd hJ (List.not_mem_nil J)
  | j :: rest, vf, k, v, J, hJ, hJm, hJlen, href, hex, hw => by
    rcases List.mem_cons.mp hJ with rfl | hJ'
    · unfold junctionPassViz
      rw [if_neg hJm]
      rw [if_neg (by omega)]
      dsimp only
      have hothers : ¬(junctionRefs reg model.table_name J.fks false []).2.isEmpty = true := by
        obtain ⟨o, ho, -⟩ := hex
        intro hemp
        rw [List.isEmpty_iff.mp hemp] at ho
        exact absurd ho (List.not_mem_nil o)
      rw [if_pos (by rw [href]; simpa using hothers)]
      refine jpv_preserve reg model rest _ k v ?_ hw
      refine foldl_dictSet_establish _ vf k v hex ?_
      intro o ho hko
      rcases junctionRefs_others_sources reg model.table_name J.fks false [] o ho with
        hin | hsrc
      · cases hin
      · exact hw o hsrc hko
    · unfold junctionPassViz
      split
      · exact jpv_establish reg model rest vf k v J hJ' hJm hJlen href hex hw
      · split
        · exact jpv_establish reg model rest vf k v J hJ' hJm hJlen href hex hw
        · dsimp only
          split
          · exact jpv_establish reg model rest _ k v J hJ' hJm hJlen href hex hw
          · exact jpv_establish reg model rest vf k v J hJ' hJm hJlen href hex hw

/-- C8: for a junction entity `J` (all its non-key fields are foreign
keys, referencing the distinct tables of `A` and `B`), the visualizer's
virtual-field computation gives `A` a many-to-many (plural, `is_list`)
virtual field for `B` and `B` one for `A`, while the junction entity
itself receives only singular (many-to-one) virtual fields.  Registry
names and (lowercased) table names are unique as in the source's
dictionaries, `A` and `B` are ordinary (non-junction) entities, and no
other registered model shares their lowercased class names. -/
theorem c8_junction_many_to_many (reg : List VizModel) (A B J : VizModel)
    (fa ta fb tb : String)
    (hnames : (reg.map VizModel.name).Nodup)
    (hltables : (reg.map (fun m => (lowerStr m.table_name))).Nodup)
    (hA : A ∈ reg) (hB : B ∈ reg) (hJ : J ∈ reg)
    (hABne : A ≠ B) (hAJne : A ≠ J) (hBJne : B ≠ J)
    (hfa : (fa, ta) ∈ J.fks) (hta : fkTable ta = some A.table_name)
    (hfb : (fb, tb) ∈ J.fks) (htb : fkTable tb = some B.table_name)
    (hjonly : ∀ p ∈ J.fields, p.2 = false → p.1 ∈ J.fks.map Prod.fst)
    (hAnj : ¬(2 ≤ A.fks.length ∧
      2 ≤ ((A.fks.filterMap (fun p => fkTable p.2)).dedup).length))
    (hBnj : ¬(2 ≤ B.fks.length ∧
      2 ≤ ((B.fks.filterMap (fun p => fkTable p.2)).dedup).length))
    (hlowerA : ∀ m ∈ reg, m ≠ A → (lowerStr m.name) ≠ (lowerStr A.name))
    (hlowerB : ∀ m ∈ reg, m ≠ B → (lowerStr m.name) ≠ (lowerStr B.name)) :
    dictFind (virtualRelationshipFields reg A) ((lowerStr B.name) ++ "s") =
      some ((lowerStr B.name) ++ "s", ⟨"List[" ++ B.name ++ "]", true, B.name⟩) ∧
    dictFind (virtualRelationshipFields reg B) ((lowerStr A.name) ++ "s") =
      some ((lowerStr A.name) ++ "s", ⟨"List[" ++ A.name ++ "]", true, A.name⟩) ∧
    ∀ e ∈ virtualRelationshipFields reg J, e.2.is_list = false := by
  have htabinj : ∀ x ∈ reg, ∀ y ∈ reg, (lowerStr x.table_name) = (lowerStr y.table_name) → x = y :=
    fun x hx y hy hxy => List.inj_on_of_nodup_map hltables hx hy hxy
  have hnameinj : ∀ x ∈ reg, ∀ y ∈ reg, x.name = y.name → x = y :=
    fun x hx y hy hxy => List.inj_on_of_nodup_map hnames hx hy hxy
  have hTabAB : A.table_name ≠ B.table_name := by
    intro h
    exact hABne (htabinj A hA B hB (by rw [h]))
  have htatb : (fa, ta) ≠ (fb, tb) := by
    intro h
    injection h with h1 h2
    rw [h2] at hta
    rw [hta] at htb
    exact hTabAB (Option.some.inj htb)
  have hfindB : reg.find? (fun o => o.table_name == B.table_name) = some B := by
    refine find?_eq_some_of_unique _ reg B hB (by simp) ?_
    intro y hy hpy
    exact htabinj y hy B hB (by rw [show y.table_name = B.table_name from by simpa using hpy])
  have hfindA : reg.find? (fun o => o.table_name == A.table_name) = some A := by
    refine find?_eq_some_of_unique _ reg A hA (by simp) ?_
    intro y hy hpy
    exact htabinj y hy A hA (by rw [show y.table_name = A.table_name from by simpa using hpy])
  have hJfkslen : 2 ≤ J.fks.length := two_mem_length_ge hfa hfb htatb
  refine ⟨?_, ?_, ?_⟩
  · -- A's side
    unfold virtualRelationshipFields
    cases hsp : singularPass reg A.fks [] [] with
    | mk vf0 rel0 =>
      dsimp only
      rw [if_neg (fun hco => by
        simp only [Bool.and_eq_true, decide_eq_true_eq] at hco
        exact hAnj ⟨hco.1.1, hco.1.2⟩)]
      refine jpv_establish reg A reg vf0 _ _ J hJ (fun h => hAJne h.symm) hJfkslen
        (junctionRefs_referenced reg A.table_name J.fks false [] fa ta hfa hta) ?_ ?_
      · exact ⟨B.name,
          junctionRefs_others_mem reg A.table_name J.fks false [] fb tb B.table_name B hfb htb
            (fun h => hTabAB h.symm) hfindB, rfl⟩
      · rintro x ⟨m, hm, rfl⟩ hk
        have hlow : (lowerStr m.name) = (lowerStr B.name) := string_append_s_cancel hk
        by_cases hmB : m = B
        · rw [hmB]
        · exact absurd hlow (hlowerB m hm hmB)
  · -- B's side
    unfold virtualRelationshipFields
    cases hsp : singularPass reg B.fks [] [] with
    | mk vf0 rel0 =>
      dsimp only
      rw [if_neg (fun hco => by
        simp only [Bool.and_eq_true, decide_eq_true_eq] at hco
        exact hBnj ⟨hco.1.1, hco.1.2⟩)]
      refine jpv_establish reg B reg vf0 _ _ J hJ (fun h => hBJne h.symm) hJfkslen
        (junctionRefs_referenced reg B.table_name J.fks false [] fb tb hfb htb) ?_ ?_
      · exact ⟨A.name,
          junctionRefs_others_mem reg B.table_name J.fks false [] fa ta A.table_name A hfa hta
            hTabAB hfindA, rfl⟩
      · rintro x ⟨m, hm, rfl⟩ hk
        have hlow : (lowerStr m.name) = (lowerStr A.name) := string_append_s_cancel hk
        by_cases hmA : m = A
        · rw [hmA]
        · exact absurd hlow (hlowerA m hm hmA)
  · -- the junction itself gets only singular virtual fields
    unfold virtualRelationshipFields
    cases hsp : singularPass reg J.fks [] [] with
    | mk vf0 rel0 =>
      dsimp only
      have hfindAlow : reg.find?
          (fun cls => (lowerStr cls.table_name) == (lowerStr A.table_name)) = some A := by
        refine find?_eq_some_of_unique _ reg A hA (by simp) ?_
        intro y hy hpy
        exact htabinj y hy A hA (by simpa using hpy)
      have hfindBlow : reg.find?
          (fun cls => (lowerStr cls.table_name) == (lowerStr B.table_name)) = some B := by
        refine find?_eq_some_of_unique _ reg B hB (by simp) ?_
        intro y hy hpy
        exact htabinj y hy B hB (by simpa using hpy)
      have hAmem : A.name ∈ rel0 := by
        have := singularPass_rel_mem reg J.fks [] [] fa ta A.table_name A hfa hta hfindAlow
        rw [hsp] at this
        exact this
      have hBmem : B.name ∈ rel0 := by
        have := singularPass_rel_mem reg J.fks [] [] fb tb B.table_name B hfb htb hfindBlow
        rw [hsp] at this
        exact this
      have hnameAB : A.name ≠ B.name := fun h => hABne (hnameinj A hA B hB h)
      have hrel2 : 2 ≤ rel0.length := two_mem_length_ge hAmem hBmem hnameAB
      have hmemA' : A.table_name ∈ J.fks.filterMap (fun p => fkTable p.2) :=
        List.mem_filterMap.mpr ⟨(fa, ta), hfa, hta⟩
      have hmemB' : B.table_name ∈ J.fks.filterMap (fun p => fkTable p.2) :=
        List.mem_filterMap.mpr ⟨(fb, tb), hfb, htb⟩
      have hded : 2 ≤ ((J.fks.filterMap (fun p => fkTable p.2)).dedup).length :=
        two_mem_dedup_length_ge hmemA' hmemB' hTabAB
      rw [if_pos (by
        simp only [Bool.and_eq_true, decide_eq_true_eq]
        exact ⟨⟨hJfkslen, hded⟩, hrel2⟩)]
      intro e he
      have hmem2 : e ∈ (singularPass reg J.fks [] []).1 := by
        rw [hsp]
        exact he
      rcases singularPass_entries reg J.fks [] [] e hmem2 with hin | hflat
      · exact absurd hin (List.not_mem_nil e)
      · exact hflat


/-- Closed instance of C8: `Author`/`Book` linked through the junction
`AuthorBook`. -/
theorem c8_witness :
    dictFind (virtualRelationshipFields vizReg vizA) ((lowerStr vizB.name) ++ "s") =
      some ((lowerStr vizB.name) ++ "s", ⟨"List[" ++ vizB.name ++ "]", true, vizB.name⟩) ∧
    dictFind (virtualRelationshipFields vizReg vizB) ((lowerStr vizA.name) ++ "s") =
      some ((lowerStr vizA.name) ++ "s", ⟨"List[" ++ vizA.name ++ "]", true, vizA.name⟩) ∧
    ∀ e ∈ virtualRelationshipFields vizReg vizJ, e.2.is_list = false :=
  c8_junction_many_to_many vizReg vizA vizB vizJ "author_id" "author.id" "book_id" "book.id"
    (by decide) (by decide) (by decide) (by decide) (by decide) (by decide) (by decide)
    (by decide) (by decide) (by decide) (by decide) (by decide) (by decide) (by decide)
    (by decide) (by decide) (by decide)


/-! ## C3 -/

/-- C3: `apply_migration` is all-or-nothing for the entity being applied —
when an operation fails, the error propagates with the migration files
untouched (no history record, no fingerprint update), and the enclosing
transaction's rollback leaves the committed schema unchanged; only when
every operation succeeds are the applied operations recorded in the
history and the stored fingerprint replaced by the entity's current
fingerprint. -/
theorem c3_apply_migration_atomic (exec : Op → Except String Unit) (m : ModelDesc)
    (operations : List Op) (st : RunState) :
    (∀ e st', apply_migration exec m operations st = .error (e, st') →
      st'.files = st.files) ∧
    (∀ st', apply_migration exec m operations st = .ok st' →
      ∃ applied, applyLoop exec m operations [] = .ok applied ∧
        st'.files = updateFilesAfterApply m applied st.files ∧
        st'.db = st.db ++ applied) ∧
    (∀ live models cs e fs, migrate_models exec live models cs = .error (e, fs) →
      fs.db = cs.db) := by
  refine ⟨?_, ?_, ?_⟩
  · intro e st' h
    unfold apply_migration at h
    cases happly : applyLoop exec m operations [] with
    | error p =>
      rw [happly] at h
      cases h
      rfl
    | ok applied =>
      rw [happly] at h
      cases h
  · intro st' h
    unfold apply_migration at h
    cases happly : applyLoop exec m operations [] with
    | error p =>
      rw [happly] at h
      cases h
    | ok applied =>
      rw [happly] at h
      cases h
      exact ⟨applied, rfl, rfl, rfl⟩
  · intro live models cs e fs h
    unfold migrate_models at h
    dsimp only at h
    split at h
    · cases h
    · cases hrun : runLoop exec live models (detect_model_changes models cs.files).1
        { db := [], files := cs.files } [] with
      | error p =>
        rw [hrun] at h
        cases h
        rfl
      | ok p =>
        rw [hrun] at h
        cases h

/-- Closed instance of C3: an execution oracle that rejects everything
leaves the files of the failing entity's run state untouched. -/
theorem c3_witness :
    (RunState.mk [] files0).files = files0 :=
  (c3_apply_migration_atomic (fun _ => .error "boom") mA4 [Op.createTable "a"]
    ⟨[], files0⟩).1 "boom" ⟨[], files0⟩ rfl

/-! ## C4 -/

/-- C4 counterexample: in one run over entities `A`, `B`, `C` (all new,
each planning a single `create_table`) where creating `B`'s table fails,
the run aborts with an error; entity `A`'s already-applied `CREATE TABLE`
is rolled back together with everything else — the committed schema ends
empty — even though `A`'s fingerprint and history record were already
written, and entity `C` is never processed (no fingerprint, no history
record, no result entry).  This contradicts the claimed per-entity
transaction scope and per-entity failure isolation. -/
theorem c4_counterexample :
    migrate_models execFailB (fun _ => none) [mA4, mB4, mC4] ⟨[], files0⟩ =
      .error ("cannot create", ⟨[], filesA⟩) ∧
    dictFind (_load_model_hashes filesA.hashFile) "A" = some ("A", _get_model_hash mA4) ∧
    dictFind (_load_model_hashes filesA.hashFile) "C" = none := by
  refine ⟨by rfl, by decide, by decide⟩

/-- C4 amended: within one migration run all entities' operations execute
inside a single shared transaction; a database-level failure while
migrating any entity aborts the whole run — the error propagates and the
committed schema is left exactly as before the run (the schema changes of
previously successful entities are rolled back with it, and the remaining
entities are not processed), while the fingerprint-store and history
writes already made for previously successful entities persist.  On a
fully successful run the committed schema grows by exactly the run's
transaction log. -/
theorem c4_amended_single_transaction (exec : Op → Except String Unit)
    (live : String → Option (List DbColumn)) (models : List ModelDesc)
    (cs : CommittedState) :
    (∀ e fs, migrate_models exec live models cs = .error (e, fs) → fs.db = cs.db) ∧
    (∀ res fs, migrate_models exec live models cs = .ok (res, fs) →
      ∃ delta, fs.db = cs.db ++ delta) := by
  constructor
  · intro e fs h
    unfold migrate_models at h
    dsimp only at h
    split at h
    · cases h
    · cases hrun : runLoop exec live models (detect_model_changes models cs.files).1
        { db := [], files := cs.files } [] with
      | error p =>
        rw [hrun] at h
        cases h
        rfl
      | ok p =>
        rw [hrun] at h
        cases h
  · intro res fs h
    unfold migrate_models at h
    dsimp only at h
    split at h
    · cases h
      exact ⟨[], by simp⟩
    · cases hrun : runLoop exec live models (detect_model_changes models cs.files).1
        { db := [], files := cs.files } [] with
      | error p =>
        rw [hrun] at h
        cases h
      | ok p =>
        rw [hrun] at h
        cases h
        exact ⟨p.2.db, rfl⟩

/-- Closed instance of the amended C4: the failing three-entity run ends
with the committed schema it started from. -/
theorem c4_amended_witness :
    (CommittedState.mk [] filesA).db = ([] : List Op) :=
  (c4_amended_single_transaction execFailB (fun _ => none) [mA4, mB4, mC4]
    ⟨[], files0⟩).1 "cannot create" ⟨[], filesA⟩ (by rfl)

/-- Closed instance of C5: one stored-but-unchanged model, one new model,
in a state with a stored fingerprint for the first only. -/
theorem c5_witness :
    (detect_model_changes
      [⟨"A", "a", [], none⟩, ⟨"B", "b", [], none⟩]
      ⟨FileContent.valid [("A", _get_model_hash ⟨"A", "a", [], none⟩)], FileContent.absent⟩).1 =
      [("B", ChangeStatus.isNew (_get_model_hash ⟨"B", "b", [], none⟩))] ∧
    (detect_model_changes
      [⟨"A", "a", [], none⟩, ⟨"B", "b", [], none⟩]
      ⟨FileContent.valid [("A", _get_model_hash ⟨"A", "a", [], none⟩)], FileContent.absent⟩).2 =
      ⟨FileContent.valid [("A", _get_model_hash ⟨"A", "a", [], none⟩)], FileContent.absent⟩ := by
  have h := c5_detect_changes
    [⟨"A", "a", [], none⟩, ⟨"B", "b", [], none⟩]
    ⟨FileContent.valid [("A", _get_model_hash ⟨"A", "a", [], none⟩)], FileContent.absent⟩
    (by decide)
  exact ⟨by decide, h.1⟩

/-! ## C7 (RelationshipResolver, modelled from the spec) -/

theorem addsFor_table (adds : List (String × RelAttr)) (e : Entity) :
    (addsFor adds e).table_name = e.table_name := rfl

theorem addsFor_fields (adds : List (String × RelAttr)) (e : Entity) :
    (addsFor adds e).fields = e.fields := rfl

theorem addsFor_rels (adds : List (String × RelAttr)) (e : Entity) :
    (addsFor adds e).rels =
      e.rels ++ adds.filterMap (fun p => if p.1 == e.table_name then some p.2 else none) := rfl

theorem lookupEnt_applyAdds (reg : List Entity) (adds : List (String × RelAttr)) (t : String) :
    lookupEnt (applyAdds reg adds) t = (lookupEnt reg t).map (addsFor adds) := by
  induction reg with
  | nil => rfl
  | cons e l ih =>
    show lookupEnt (addsFor adds e :: applyAdds l adds) t = _
    unfold lookupEnt at *
    by_cases he : e.table_name = t
    · rw [List.find?_cons_of_pos _ (by simpa [addsFor_table] using he),
        List.find?_cons_of_pos _ (by simpa using he)]
      rfl
    · rw [List.find?_cons_of_neg _ (by simpa [addsFor_table] using he),
        List.find?_cons_of_neg _ (by simpa using he)]
      exact ih

theorem lookupEnt_of_mem {reg : List Entity} {e : Entity}
    (hnd : (reg.map Entity.table_name).Nodup) (he : e ∈ reg) :
    lookupEnt reg e.table_name = some e := by
  refine find?_eq_some_of_unique _ reg e he (by simp) ?_
  intro y hy hpy
  exact List.inj_on_of_nodup_map hnd hy he (by simpa using hpy)

theorem mem_of_lookupEnt {reg : List Entity} {t : String} {e : Entity}
    (h : lookupEnt reg t = some e) : e ∈ reg ∧ e.table_name = t :=
  ⟨List.mem_of_find?_eq_some h, by simpa using List.find?_some h⟩

theorem fkCands_applyAdds (reg : List Entity) (adds : List (String × RelAttr)) :
    fkCands (applyAdds reg adds) = fkCands reg := by
  unfold fkCands applyAdds
  rw [List.flatMap_map]
  rfl

theorem junctionTargets_addsFor (adds : List (String × RelAttr)) (e : Entity) :
    junctionTargets (addsFor adds e) = junctionTargets e := rfl

theorem jCands_applyAdds (reg : List Entity) (adds : List (String × RelAttr)) :
    jCands (applyAdds reg adds) = jCands reg := by
  unfold jCands applyAdds
  rw [List.flatMap_map]
  rfl

theorem resolvableTarget_applyAdds (reg : List Entity) (adds : List (String × RelAttr))
    (f : FieldSpec) :
    resolvableTarget (applyAdds reg adds) f = (resolvableTarget reg f).map (addsFor adds) := by
  unfold resolvableTarget
  cases f.foreign_key with
  | none => rfl
  | some p =>
    dsimp only
    rw [lookupEnt_applyAdds]
    cases lookupEnt reg p.1 with
    | none => rfl
    | some tgt =>
      simp only [Option.map_some']
      dsimp only [addsFor]
      cases hc : (tgt.fields.any fun g => g.name == p.2 && g.is_primary) with
      | true =>
        rw [if_pos rfl, if_pos rfl, Option.map_some']
        rfl
      | false =>
        rw [if_neg (by simp), if_neg (by simp)]
        rfl

theorem updateEnt_applyAdds_append (reg : List Entity) (adds : List (String × RelAttr))
    (t : String) (a : RelAttr) :
    updateEnt (applyAdds reg adds) t (fun e => { e with rels := e.rels ++ [a] }) =
      applyAdds reg (adds ++ [(t, a)]) := by
  unfold updateEnt applyAdds
  rw [List.map_map]
  refine List.map_congr_left ?_
  intro e he
  show (if (addsFor adds e).table_name == t then _ else _) = addsFor (adds ++ [(t, a)]) e
  by_cases het : e.table_name = t
  · rw [if_pos (by simpa [addsFor_table] using het)]
    unfold addsFor
    simp only [List.filterMap_append]
    have : [(t, a)].filterMap (fun p => if p.1 == e.table_name then some p.2 else none) = [a] := by
      simp [List.filterMap_cons, het]
    rw [this]
    simp [List.append_assoc]
  · rw [if_neg (by simpa [addsFor_table] using het)]
    unfold addsFor
    simp only [List.filterMap_append]
    have hbeq : (t == e.table_name) = false :=
      beq_eq_false_iff_ne.mpr (fun hcontra => het hcontra.symm)
    have hf : (fun (p : String × RelAttr) => if p.1 == e.table_name then some p.2 else none)
        (t, a) = none := by
      show (if (t == e.table_name) = true then some a else none) = none
      rw [hbeq]
      simp
    have h2 : [(t, a)].filterMap (fun p => if p.1 == e.table_name then some p.2 else none) = [] :=
      List.filterMap_cons_none hf
    rw [h2]
    simp

theorem foldl_eq_of_steps_id {α β : Type} (step : α → β → α) (s : α) :
    ∀ (l : List β), (∀ c ∈ l, step s c = s) → l.foldl step s = s
  | [], _ => rfl
  | c :: l, h => by
    rw [List.foldl_cons, h c (List.mem_cons_self c l)]
    exact foldl_eq_of_steps_id step s l (fun c' hc' => h c' (List.mem_cons_of_mem c hc'))

theorem fkCands_spec {reg : List Entity} {c : String × FieldSpec} :
    c ∈ fkCands reg ↔
      ∃ e ∈ reg, c.1 = e.table_name ∧ c.2 ∈ e.fields ∧ c.2.foreign_key.isSome = true := by
  unfold fkCands
  rw [List.mem_flatMap]
  constructor
  · rintro ⟨e, he, hc⟩
    obtain ⟨f, hf, hsel⟩ := List.mem_filterMap.mp hc
    split at hsel
    · cases hsel
      rename_i hsome
      exact ⟨e, he, rfl, hf, hsome⟩
    · cases hsel
  · rintro ⟨e, he, h1, h2, h3⟩
    refine ⟨e, he, List.mem_filterMap.mpr ⟨c.2, h2, ?_⟩⟩
    rw [if_pos h3]
    exact congrArg some (Prod.ext_iff.mpr ⟨h1.symm, rfl⟩)

theorem keys_ne_of_nodup_parts {α β : Type} (k : α → β) {L1 L2 : List α}
    (h : ((L1 ++ L2).map k).Nodup) {p q : α} (hp : p ∈ L1) (hq : q ∈ L2) : k p ≠ k q := by
  rw [List.map_append] at h
  have hdisj := (List.nodup_append.mp h).2.2
  intro heq
  exact hdisj (List.mem_map_of_mem k hp) (heq ▸ List.mem_map_of_mem k hq)

theorem fkAddsOfCand_none {reg : List Entity} {c : String × FieldSpec}
    (h : resolvableTarget reg c.2 = none) : fkAddsOfCand reg c = [] := by
  unfold fkAddsOfCand
  rw [h]

theorem fkAddsOfCand_some {reg : List Entity} {c : String × FieldSpec} {tgt : Entity}
    (h : resolvableTarget reg c.2 = some tgt) :
    fkAddsOfCand reg c =
      [(c.1, ⟨relFieldName c.2.name, tgt.table_name, .manyToOne, pluralizeTable c.1,
        some (c.1, c.2.name), none⟩),
       (tgt.table_name, ⟨pluralizeTable c.1, c.1, .oneToMany, relFieldName c.2.name,
        some (c.1, c.2.name), none⟩)] := by
  unfold fkAddsOfCand
  rw [h]

theorem fkAddsOfCand_fk_id {reg : List Entity} {c : String × FieldSpec} {p : String × RelAttr}
    (h : p ∈ fkAddsOfCand reg c) : p.2.fk_id = some (c.1, c.2.name) := by
  unfold fkAddsOfCand at h
  cases hres : resolvableTarget reg c.2 with
  | none => rw [hres] at h; cases h
  | some tgt =>
    rw [hres] at h
    rcases List.mem_cons.mp h with rfl | h2
    · rfl
    · rcases List.mem_cons.mp h2 with rfl | h3
      · rfl
      · cases h3

theorem mem_allAdds_of_fk {reg : List Entity} {c : String × FieldSpec} {p : String × RelAttr}
    (hc : c ∈ fkCands reg) (hp : p ∈ fkAddsOfCand reg c) : p ∈ allAdds reg :=
  List.mem_append_left _ (List.mem_flatMap.mpr ⟨c, hc, hp⟩)

theorem mem_allAdds_of_j {reg : List Entity} {c : String × String × String} {p : String × RelAttr}
    (hc : c ∈ jCands reg) (hp : p ∈ jAddsOfCand reg c) : p ∈ allAdds reg :=
  List.mem_append_right _ (List.mem_flatMap.mpr ⟨c, hc, hp⟩)

theorem fkCands_keys_nodup {reg : List Entity}
    (htab : (reg.map Entity.table_name).Nodup)
    (hfields : ∀ e ∈ reg, (e.fields.map FieldSpec.name).Nodup) :
    ((fkCands reg).map (fun c => (c.1, c.2.name))).Nodup := by
  unfold fkCands
  rw [List.map_flatMap]
  refine List.nodup_flatMap.mpr ⟨?_, ?_⟩
  · intro e he
    have hsub : ((e.fields.filterMap (fun f =>
        if f.foreign_key.isSome then some (e.table_name, f) else none)).map
          (fun c => (c.1, c.2.name))).map Prod.snd |>.Sublist (e.fields.map FieldSpec.name) := by
      rw [List.map_map]
      exact map_filterMap_sublist_map _ _ _
        (fun f pr hsel => by
          split at hsel
          · cases hsel; rfl
          · cases hsel) e.fields
    exact List.Nodup.of_map Prod.snd (List.Sublist.nodup hsub (hfields e he))
  · have hne : reg.Pairwise (fun a b => a.table_name ≠ b.table_name) :=
      List.pairwise_map.mp htab
    refine hne.imp ?_
    intro a b hab
    intro x hxa hxb
    obtain ⟨ca, hca, rfl⟩ := List.mem_map.mp hxa
    obtain ⟨fa, -, hfa⟩ := List.mem_filterMap.mp hca
    obtain ⟨cb, hcb, hkb⟩ := List.mem_map.mp hxb
    obtain ⟨fb, -, hfb⟩ := List.mem_filterMap.mp hcb
    have ha1 : ca.1 = a.table_name := by
      split at hfa
      · cases hfa; rfl
      · cases hfa
    have hb1 : cb.1 = b.table_name := by
      split at hfb
      · cases hfb; rfl
      · cases hfb
    have : ca.1 = cb.1 := (congrArg Prod.fst hkb).symm
    rw [ha1, hb1] at this
    exact hab this

theorem resolvableTarget_mem {reg : List Entity} {f : FieldSpec} {tgt : Entity}
    (h : resolvableTarget reg f = some tgt) : tgt ∈ reg := by
  unfold resolvableTarget at h
  cases hfk : f.foreign_key with
  | none => rw [hfk] at h; cases h
  | some p =>
    rw [hfk] at h
    dsimp only at h
    cases hlook : lookupEnt reg p.1 with
    | none => rw [hlook] at h; cases h
    | some t0 =>
      rw [hlook] at h
      dsimp only at h
      split at h
      · cases h
        exact (mem_of_lookupEnt hlook).1
      · cases h

theorem allAdds_split {reg : List Entity} {done rest : List (String × FieldSpec)}
    {c : String × FieldSpec} (hsplit : fkCands reg = done ++ c :: rest) :
    allAdds reg = done.flatMap (fkAddsOfCand reg) ++
      (fkAddsOfCand reg c ++ (rest.flatMap (fkAddsOfCand reg) ++
        (jCands reg).flatMap (jAddsOfCand reg))) := by
  unfold allAdds
  rw [hsplit, List.flatMap_append, List.flatMap_cons, List.append_assoc, List.append_assoc]

theorem fkStep_applyAdds {reg : List Entity} (hcf : collisionFree reg)
    {done rest : List (String × FieldSpec)} {c : String × FieldSpec}
    (hsplit : fkCands reg = done ++ c :: rest) :
    fkStep (applyAdds reg (done.flatMap (fkAddsOfCand reg))) c =
      applyAdds reg (done.flatMap (fkAddsOfCand reg) ++ fkAddsOfCand reg c) := by
  obtain ⟨htab, hfields, hfk, hkeys, hfresh⟩ := hcf
  have hc : c ∈ fkCands reg := by
    rw [hsplit]
    exact List.mem_append_right _ (List.mem_cons_self c rest)
  obtain ⟨e, he, hc1, hc2, hc3⟩ := fkCands_spec.mp hc
  have hlook : lookupEnt reg c.1 = some e := by
    rw [hc1]
    exact lookupEnt_of_mem htab he
  have hkeysD : ∀ c' ∈ done, (c'.1, c'.2.name) ≠ (c.1, c.2.name) := by
    intro c' hc'
    have hnodup := fkCands_keys_nodup htab hfields
    rw [hsplit] at hnodup
    exact keys_ne_of_nodup_parts _ hnodup hc' (List.mem_cons_self c rest)
  have hkeysAdds : ∀ p ∈ done.flatMap (fkAddsOfCand reg), ∀ q ∈ fkAddsOfCand reg c,
      (p.1, p.2.attr_name) ≠ (q.1, q.2.attr_name) := by
    intro p hp q hq
    have hnodup := hkeys
    rw [allAdds_split hsplit] at hnodup
    exact keys_ne_of_nodup_parts _ hnodup hp (List.mem_append_left _ hq)
  unfold fkStep
  rw [lookupEnt_applyAdds, hlook]
  simp only [Option.map_some']
  rw [resolvableTarget_applyAdds]
  cases hres : resolvableTarget reg c.2 with
  | none =>
    simp only [Option.map_none']
    rw [fkAddsOfCand_none hres, List.append_nil]
  | some tgt =>
    simp only [Option.map_some']
    have htgtmem : tgt ∈ reg := resolvableTarget_mem hres
    have hentries := fkAddsOfCand_some hres
    have hm2o_mem : (c.1, (⟨relFieldName c.2.name, tgt.table_name, .manyToOne,
        pluralizeTable c.1, some (c.1, c.2.name), none⟩ : RelAttr)) ∈ fkAddsOfCand reg c := by
      rw [hentries]
      exact List.mem_cons_self _ _
    have ho2m_mem : (tgt.table_name, (⟨pluralizeTable c.1, c.1, .oneToMany,
        relFieldName c.2.name, some (c.1, c.2.name), none⟩ : RelAttr)) ∈ fkAddsOfCand reg c := by
      rw [hentries]
      exact List.mem_cons_of_mem _ (List.mem_cons_self _ _)
    have hDe : ∀ r ∈ (addsFor (done.flatMap (fkAddsOfCand reg)) e).rels,
        r.fk_id ≠ some (c.1, c.2.name) := by
      intro r hr
      rw [addsFor_rels] at hr
      rcases List.mem_append.mp hr with hr1 | hr2
      · exact hfk c hc e he hc1.symm r hr1
      · obtain ⟨p, hp, hsel⟩ := List.mem_filterMap.mp hr2
        have hpr : p.2 = r := by
          split at hsel
          · cases hsel; rfl
          · cases hsel
        obtain ⟨c', hc', hp'⟩ := List.mem_flatMap.mp hp
        have := fkAddsOfCand_fk_id hp'
        rw [hpr] at this
        rw [this]
        intro hcontra
        exact hkeysD c' hc' (Option.some.inj hcontra)
    have hany1 : ((addsFor (done.flatMap (fkAddsOfCand reg)) e).rels.any
        fun r => r.fk_id == some (c.1, c.2.name)) = false := by
      refine List.any_eq_false.mpr ?_
      intro r hr
      simpa using hDe r hr
    have hnameOwner : ∀ r ∈ (addsFor (done.flatMap (fkAddsOfCand reg)) e).rels,
        r.attr_name ≠ relFieldName c.2.name := by
      intro r hr
      rw [addsFor_rels] at hr
      rcases List.mem_append.mp hr with hr1 | hr2
      · exact hfresh _ (mem_allAdds_of_fk hc hm2o_mem) e he hc1.symm r hr1
      · obtain ⟨p, hp, hsel⟩ := List.mem_filterMap.mp hr2
        have hp1 : p.1 = e.table_name ∧ p.2 = r := by
          split at hsel
          · cases hsel
            rename_i hbe
            exact ⟨by simpa using hbe, rfl⟩
          · cases hsel
        intro hcontra
        refine hkeysAdds p hp _ hm2o_mem ?_
        rw [hp1.1, hp1.2, hcontra, hc1]
    have hnameTgt : ∀ r ∈ (addsFor (done.flatMap (fkAddsOfCand reg)) tgt).rels,
        r.attr_name ≠ pluralizeTable c.1 := by
      intro r hr
      rw [addsFor_rels] at hr
      rcases List.mem_append.mp hr with hr1 | hr2
      · exact hfresh _ (mem_allAdds_of_fk hc ho2m_mem) tgt htgtmem rfl r hr1
      · obtain ⟨p, hp, hsel⟩ := List.mem_filterMap.mp hr2
        have hp1 : p.1 = tgt.table_name ∧ p.2 = r := by
          split at hsel
          · cases hsel
            rename_i hbe
            exact ⟨by simpa using hbe, rfl⟩
          · cases hsel
        intro hcontra
        refine hkeysAdds p hp _ ho2m_mem ?_
        rw [hp1.1, hp1.2, hcontra]
    have hanyname : (((addsFor (done.flatMap (fkAddsOfCand reg)) e).rels.any
          fun r => r.attr_name == relFieldName c.2.name) ||
        ((addsFor (done.flatMap (fkAddsOfCand reg)) tgt).rels.any
          fun r => r.attr_name == pluralizeTable c.1)) = false := by
      rw [Bool.or_eq_false_iff]
      constructor
      · refine List.any_eq_false.mpr ?_
        intro r hr
        simpa using hnameOwner r hr
      · refine List.any_eq_false.mpr ?_
        intro r hr
        simpa using hnameTgt r hr
    rw [if_neg (show ¬((addsFor (done.flatMap (fkAddsOfCand reg)) e).rels.any
        fun r => r.fk_id == some (c.1, c.2.name)) = true from by
      rw [hany1]; exact Bool.false_ne_true)]
    rw [if_neg (show ¬(((addsFor (done.flatMap (fkAddsOfCand reg)) e).rels.any
          fun r => r.attr_name == relFieldName c.2.name) ||
        ((addsFor (done.flatMap (fkAddsOfCand reg)) tgt).rels.any
          fun r => r.attr_name == pluralizeTable c.1)) = true from by
      rw [hanyname]; exact Bool.false_ne_true)]
    rw [hentries]
    rw [show (addsFor (done.flatMap (fkAddsOfCand reg)) tgt).table_name = tgt.table_name from rfl]
    rw [updateEnt_applyAdds_append, updateEnt_applyAdds_append]
    rw [List.append_assoc]
    rfl

theorem applyAdds_nil (reg : List Entity) : applyAdds reg [] = reg := by
  unfold applyAdds
  have h : ∀ e : Entity, addsFor [] e = e := by
    intro e
    unfold addsFor
    cases e with
    | mk t fs rs => simp
  rw [List.map_congr_left (fun e _ => h e)]
  exact List.map_id' reg

theorem fkPass_aux {reg : List Entity} (hcf : collisionFree reg) :
    ∀ (rest done : List (String × FieldSpec)), fkCands reg = done ++ rest →
      rest.foldl fkStep (applyAdds reg (done.flatMap (fkAddsOfCand reg))) =
        applyAdds reg ((done ++ rest).flatMap (fkAddsOfCand reg))
  | [], done, hsplit => by
    rw [List.append_nil]
    rfl
  | c :: rest', done, hsplit => by
    rw [List.foldl_cons, fkStep_applyAdds hcf hsplit]
    have h1 : done.flatMap (fkAddsOfCand reg) ++ fkAddsOfCand reg c =
        (done ++ [c]).flatMap (fkAddsOfCand reg) := by
      rw [List.flatMap_append, List.flatMap_cons]
      simp
    rw [h1]
    have hsplit' : fkCands reg = (done ++ [c]) ++ rest' := by
      rw [hsplit, List.append_assoc]
      rfl
    rw [fkPass_aux hcf rest' (done ++ [c]) hsplit']
    rw [show (done ++ [c]) ++ rest' = done ++ c :: rest' from by
      rw [List.append_assoc]; rfl]

theorem fkPass_closed {reg : List Entity} (hcf : collisionFree reg) :
    (fkCands reg).foldl fkStep reg =
      applyAdds reg ((fkCands reg).flatMap (fkAddsOfCand reg)) := by
  have h := fkPass_aux hcf (fkCands reg) [] rfl
  rw [List.flatMap_nil, applyAdds_nil] at h
  rw [h]
  rfl

theorem jAddsOfCand_some {reg : List Entity} {c : String × String × String} {ea eb : Entity}
    (ha : lookupEnt reg c.2.1 = some ea) (hb : lookupEnt reg c.2.2 = some eb) :
    jAddsOfCand reg c =
      [(c.2.1, ⟨pluralizeTable c.2.2, c.2.2, .manyToMany, pluralizeTable c.2.1,
        none, some c.1⟩)] := by
  unfold jAddsOfCand
  rw [if_pos (by rw [ha, hb]; rfl)]

theorem allAdds_split_j {reg : List Entity} {doneJ restJ : List (String × String × String)}
    {c : String × String × String} (hsplit : jCands reg = doneJ ++ c :: restJ) :
    allAdds reg = ((fkCands reg).flatMap (fkAddsOfCand reg) ++
      doneJ.flatMap (jAddsOfCand reg)) ++
      (jAddsOfCand reg c ++ restJ.flatMap (jAddsOfCand reg)) := by
  unfold allAdds
  rw [hsplit, List.flatMap_append, List.flatMap_cons]
  rw [List.append_assoc]

theorem jStep_applyAdds {reg : List Entity} (hcf : collisionFree reg)
    {doneJ restJ : List (String × String × String)} {c : String × String × String}
    (hsplit : jCands reg = doneJ ++ c :: restJ) :
    jStep (applyAdds reg ((fkCands reg).flatMap (fkAddsOfCand reg) ++
        doneJ.flatMap (jAddsOfCand reg))) c =
      applyAdds reg ((fkCands reg).flatMap (fkAddsOfCand reg) ++
        doneJ.flatMap (jAddsOfCand reg) ++ jAddsOfCand reg c) := by
  obtain ⟨htab, hfields, hfk, hkeys, hfresh⟩ := hcf
  have hc : c ∈ jCands reg := by
    rw [hsplit]
    exact List.mem_append_right _ (List.mem_cons_self c restJ)
  unfold jStep
  rw [lookupEnt_applyAdds, lookupEnt_applyAdds]
  cases ha : lookupEnt reg c.2.1 with
  | none =>
    simp only [Option.map_none']
    have hz : jAddsOfCand reg c = [] := by
      unfold jAddsOfCand
      rw [if_neg (by rw [ha]; simp)]
    rw [hz, List.append_nil]
  | some ea =>
    cases hb : lookupEnt reg c.2.2 with
    | none =>
      simp only [Option.map_some', Option.map_none']
      have hz : jAddsOfCand reg c = [] := by
        unfold jAddsOfCand
        rw [if_neg (by rw [ha, hb]; simp)]
      rw [hz, List.append_nil]
    | some eb =>
      simp only [Option.map_some']
      have heamem := mem_of_lookupEnt ha
      have hentry := jAddsOfCand_some ha hb
      have hjmem : (c.2.1, (⟨pluralizeTable c.2.2, c.2.2, .manyToMany, pluralizeTable c.2.1,
          none, some c.1⟩ : RelAttr)) ∈ jAddsOfCand reg c := by
        rw [hentry]
        exact List.mem_cons_self _ _
      have hmemAll := mem_allAdds_of_j hc hjmem
      have hkeysAdds : ∀ p ∈ (fkCands reg).flatMap (fkAddsOfCand reg) ++
          doneJ.flatMap (jAddsOfCand reg), ∀ q ∈ jAddsOfCand reg c,
          (p.1, p.2.attr_name) ≠ (q.1, q.2.attr_name) := by
        intro p hp q hq
        have hnodup := hkeys
        rw [allAdds_split_j hsplit] at hnodup
        exact keys_ne_of_nodup_parts _ hnodup hp (List.mem_append_left _ hq)
      have hname : ∀ r ∈ (addsFor ((fkCands reg).flatMap (fkAddsOfCand reg) ++
          doneJ.flatMap (jAddsOfCand reg)) ea).rels,
          r.attr_name ≠ pluralizeTable c.2.2 := by
        intro r hr
        rw [addsFor_rels] at hr
        rcases List.mem_append.mp hr with hr1 | hr2
        · exact hfresh _ hmemAll ea heamem.1 heamem.2 r hr1
        · obtain ⟨p, hp, hsel⟩ := List.mem_filterMap.mp hr2
          have hp1 : p.1 = ea.table_name ∧ p.2 = r := by
            split at hsel
            · cases hsel
              rename_i hbe
              exact ⟨by simpa using hbe, rfl⟩
            · cases hsel
          intro hcontra
          refine hkeysAdds p hp _ hjmem ?_
          rw [hp1.1, hp1.2, hcontra, heamem.2]
      have hany : ((addsFor ((fkCands reg).flatMap (fkAddsOfCand reg) ++
          doneJ.flatMap (jAddsOfCand reg)) ea).rels.any
            fun r => r.attr_name == pluralizeTable c.2.2) = false := by
        refine List.any_eq_false.mpr ?_
        intro r hr
        simpa using hname r hr
      rw [if_neg (show ¬((addsFor ((fkCands reg).flatMap (fkAddsOfCand reg) ++
          doneJ.flatMap (jAddsOfCand reg)) ea).rels.any
            fun r => r.attr_name == pluralizeTable c.2.2) = true from by
        rw [hany]; exact Bool.false_ne_true)]
      rw [updateEnt_applyAdds_append, hentry]

theorem jPass_aux {reg : List Entity} (hcf : collisionFree reg) :
    ∀ (restJ doneJ : List (String × String × String)), jCands reg = doneJ ++ restJ →
      restJ.foldl jStep (applyAdds reg ((fkCands reg).flatMap (fkAddsOfCand reg) ++
          doneJ.flatMap (jAddsOfCand reg))) =
        applyAdds reg ((fkCands reg).flatMap (fkAddsOfCand reg) ++
          (doneJ ++ restJ).flatMap (jAddsOfCand reg))
  | [], doneJ, hsplit => by
    rw [List.append_nil]
    rfl
  | c :: restJ', doneJ, hsplit => by
    rw [List.foldl_cons, jStep_applyAdds hcf hsplit]
    have h1 : (fkCands reg).flatMap (fkAddsOfCand reg) ++ doneJ.flatMap (jAddsOfCand reg) ++
        jAddsOfCand reg c =
        (fkCands reg).flatMap (fkAddsOfCand reg) ++ (doneJ ++ [c]).flatMap (jAddsOfCand reg) := by
      rw [List.flatMap_append, List.flatMap_cons]
      simp [List.append_assoc]
    rw [h1]
    have hsplit' : jCands reg = (doneJ ++ [c]) ++ restJ' := by
      rw [hsplit, List.append_assoc]
      rfl
    rw [jPass_aux hcf restJ' (doneJ ++ [c]) hsplit']
    rw [show (doneJ ++ [c]) ++ restJ' = doneJ ++ c :: restJ' from by
      rw [List.append_assoc]; rfl]

theorem resolveAll_closed {reg : List Entity} (hcf : collisionFree reg) :
    resolveAll reg = applyAdds reg (allAdds reg) := by
  show (jCands ((fkCands reg).foldl fkStep reg)).foldl jStep
    ((fkCands reg).foldl fkStep reg) = _
  rw [fkPass_closed hcf]
  rw [jCands_applyAdds]
  have h := jPass_aux hcf (jCands reg) [] rfl
  rw [List.flatMap_nil, List.append_nil] at h
  rw [h]
  rfl

theorem countP_zero_of_not_mem_key {t aname : String} :
    ∀ (L : List (String × RelAttr)),
      (∀ q ∈ L, ¬(q.1 = t ∧ q.2.attr_name = aname)) →
      ((L.filterMap (fun q => if q.1 == t then some q.2 else none)).countP
        (fun r => r.attr_name == aname)) = 0
  | [], _ => rfl
  | p :: l, h => by
    by_cases hp : p.1 = t
    · have hsel : (fun (q : String × RelAttr) => if q.1 == t then some q.2 else none) p =
          some p.2 := by
        show (if (p.1 == t) = true then some p.2 else none) = some p.2
        rw [if_pos (by simpa using hp)]
      have hcons : (p :: l).filterMap (fun q => if q.1 == t then some q.2 else none) =
          p.2 :: l.filterMap (fun q => if q.1 == t then some q.2 else none) :=
        List.filterMap_cons_some hsel
      rw [hcons]
      have hcnt : List.countP (fun r => r.attr_name == aname)
          (p.2 :: l.filterMap (fun q => if q.1 == t then some q.2 else none)) =
          List.countP (fun r => r.attr_name == aname)
            (l.filterMap (fun q => if q.1 == t then some q.2 else none)) := by
        refine List.countP_cons_of_neg _ _ ?_
        have hne := h p (List.mem_cons_self p l)
        simp only [beq_iff_eq]
        intro hcontra
        exact hne ⟨hp, by simpa using hcontra⟩
      rw [hcnt]
      exact countP_zero_of_not_mem_key l (fun q hq => h q (List.mem_cons_of_mem p hq))
    · have hsel : (fun (q : String × RelAttr) => if q.1 == t then some q.2 else none) p =
          none := by
        show (if (p.1 == t) = true then some p.2 else none) = none
        rw [if_neg (by simpa using hp)]
      have hcons : (p :: l).filterMap (fun q => if q.1 == t then some q.2 else none) =
          l.filterMap (fun q => if q.1 == t then some q.2 else none) :=
        List.filterMap_cons_none hsel
      rw [hcons]
      exact countP_zero_of_not_mem_key l (fun q hq => h q (List.mem_cons_of_mem p hq))

theorem countP_one_of_mem_key {t : String} {a : RelAttr} :
    ∀ (L : List (String × RelAttr)),
      ((L.map (fun q => (q.1, q.2.attr_name))).Nodup) → (t, a) ∈ L →
      ((L.filterMap (fun q => if q.1 == t then some q.2 else none)).countP
        (fun r => r.attr_name == a.attr_name)) = 1
  | [], _, hmem => absurd hmem (List.not_mem_nil _)
  | p :: l, hnd, hmem => by
    simp only [List.map_cons] at hnd
    obtain ⟨hhead, hnd'⟩ := List.nodup_cons.mp hnd
    rcases List.mem_cons.mp hmem with rfl | hmem'
    · have hsel : (fun (q : String × RelAttr) => if q.1 == t then some q.2 else none) (t, a) =
          some a := by
        show (if (t == t) = true then some a else none) = some a
        rw [if_pos (by simp)]
      have hcons : ((t, a) :: l).filterMap (fun q => if q.1 == t then some q.2 else none) =
          a :: l.filterMap (fun q => if q.1 == t then some q.2 else none) :=
        List.filterMap_cons_some hsel
      rw [hcons]
      have hcnt : List.countP (fun r => r.attr_name == a.attr_name)
          (a :: l.filterMap (fun q => if q.1 == t then some q.2 else none)) =
          List.countP (fun r => r.attr_name == a.attr_name)
            (l.filterMap (fun q => if q.1 == t then some q.2 else none)) + 1 := by
        refine List.countP_cons_of_pos _ _ ?_
        simp
      have hz := countP_zero_of_not_mem_key l
        (fun q hq hcontra =>
          hhead (List.mem_map.mpr ⟨q, hq, Prod.ext_iff.mpr ⟨hcontra.1, hcontra.2⟩⟩))
      rw [hcnt, hz]
    · have hne : ¬(p.1 = t ∧ p.2.attr_name = a.attr_name) := by
        intro hcontra
        refine hhead (List.mem_map.mpr ⟨(t, a), hmem', ?_⟩)
        show ((t, a).1, (t, a).2.attr_name) = (p.1, p.2.attr_name)
        exact Prod.ext_iff.mpr ⟨hcontra.1.symm, hcontra.2.symm⟩
      by_cases hp : p.1 = t
      · have hsel : (fun (q : String × RelAttr) => if q.1 == t then some q.2 else none) p =
            some p.2 := by
          show (if (p.1 == t) = true then some p.2 else none) = some p.2
          rw [if_pos (by simpa using hp)]
        have hcons : (p :: l).filterMap (fun q => if q.1 == t then some q.2 else none) =
            p.2 :: l.filterMap (fun q => if q.1 == t then some q.2 else none) :=
          List.filterMap_cons_some hsel
        rw [hcons]
        have hcnt : List.countP (fun r => r.attr_name == a.attr_name)
            (p.2 :: l.filterMap (fun q => if q.1 == t then some q.2 else none)) =
            List.countP (fun r => r.attr_name == a.attr_name)
              (l.filterMap (fun q => if q.1 == t then some q.2 else none)) := by
          refine List.countP_cons_of_neg _ _ ?_
          simp only [beq_iff_eq]
          intro hcontra
          exact hne ⟨hp, by simpa using hcontra⟩
        rw [hcnt]
        exact countP_one_of_mem_key l hnd' hmem'
      · have hsel : (fun (q : String × RelAttr) => if q.1 == t then some q.2 else none) p =
            none := by
          show (if (p.1 == t) = true then some p.2 else none) = none
          rw [if_neg (by simpa using hp)]
        have hcons : (p :: l).filterMap (fun q => if q.1 == t then some q.2 else none) =
            l.filterMap (fun q => if q.1 == t then some q.2 else none) :=
          List.filterMap_cons_none hsel
        rw [hcons]
        exact countP_one_of_mem_key l hnd' hmem' 

theorem resolvableTarget_isSome {reg : List Entity} {f : FieldSpec} {tgt : Entity}
    (h : resolvableTarget reg f = some tgt) : f.foreign_key.isSome = true := by
  unfold resolvableTarget at h
  cases hfk : f.foreign_key with
  | none => rw [hfk] at h; cases h
  | some p => rfl

theorem fkStep_id_on_closed {reg : List Entity} (hcf : collisionFree reg)
    {c : String × FieldSpec} (hc : c ∈ fkCands reg) :
    fkStep (applyAdds reg (allAdds reg)) c = applyAdds reg (allAdds reg) := by
  obtain ⟨htab, hfields, hfk, hkeys, hfresh⟩ := hcf
  obtain ⟨e, he, hc1, hc2, hc3⟩ := fkCands_spec.mp hc
  have hlook : lookupEnt reg c.1 = some e := by
    rw [hc1]
    exact lookupEnt_of_mem htab he
  unfold fkStep
  rw [lookupEnt_applyAdds, hlook]
  simp only [Option.map_some']
  rw [resolvableTarget_applyAdds]
  cases hres : resolvableTarget reg c.2 with
  | none => rfl
  | some tgt =>
    simp only [Option.map_some']
    have hm2o_mem : (c.1, (⟨relFieldName c.2.name, tgt.table_name, .manyToOne,
        pluralizeTable c.1, some (c.1, c.2.name), none⟩ : RelAttr)) ∈ allAdds reg := by
      refine mem_allAdds_of_fk hc ?_
      rw [fkAddsOfCand_some hres]
      exact List.mem_cons_self _ _
    have hrelmem : (⟨relFieldName c.2.name, tgt.table_name, .manyToOne,
        pluralizeTable c.1, some (c.1, c.2.name), none⟩ : RelAttr) ∈
        (addsFor (allAdds reg) e).rels := by
      rw [addsFor_rels]
      refine List.mem_append_right _ ?_
      refine List.mem_filterMap.mpr ⟨_, hm2o_mem, ?_⟩
      rw [if_pos (by simp [hc1])]
    have hany : ((addsFor (allAdds reg) e).rels.any
        fun r => r.fk_id == some (c.1, c.2.name)) = true := by
      refine List.any_eq_true.mpr ⟨_, hrelmem, by simp⟩
    rw [if_pos hany]

theorem jStep_id_on_closed {reg : List Entity} (hcf : collisionFree reg)
    {c : String × String × String} (hc : c ∈ jCands reg) :
    jStep (applyAdds reg (allAdds reg)) c = applyAdds reg (allAdds reg) := by
  obtain ⟨htab, hfields, hfk, hkeys, hfresh⟩ := hcf
  unfold jStep
  rw [lookupEnt_applyAdds, lookupEnt_applyAdds]
  cases ha : lookupEnt reg c.2.1 with
  | none => rfl
  | some ea =>
    cases hb : lookupEnt reg c.2.2 with
    | none => rfl
    | some eb =>
      simp only [Option.map_some']
      have hjmem : (c.2.1, (⟨pluralizeTable c.2.2, c.2.2, .manyToMany, pluralizeTable c.2.1,
          none, some c.1⟩ : RelAttr)) ∈ allAdds reg := by
        refine mem_allAdds_of_j hc ?_
        rw [jAddsOfCand_some ha hb]
        exact List.mem_cons_self _ _
      have hrelmem : (⟨pluralizeTable c.2.2, c.2.2, .manyToMany, pluralizeTable c.2.1,
          none, some c.1⟩ : RelAttr) ∈ (addsFor (allAdds reg) ea).rels := by
        rw [addsFor_rels]
        refine List.mem_append_right _ ?_
        refine List.mem_filterMap.mpr ⟨_, hjmem, ?_⟩
        rw [if_pos (by simp [(mem_of_lookupEnt ha).2])]
      have hany : ((addsFor (allAdds reg) ea).rels.any
          fun r => r.attr_name == pluralizeTable c.2.2) = true := by
        refine List.any_eq_true.mpr ⟨_, hrelmem, by simp⟩
      rw [if_pos hany]

theorem resolveAll_idem {reg : List Entity} (hcf : collisionFree reg) :
    resolveAll (resolveAll reg) = resolveAll reg := by
  rw [resolveAll_closed hcf]
  show (jCands ((fkCands (applyAdds reg (allAdds reg))).foldl fkStep
      (applyAdds reg (allAdds reg)))).foldl jStep _ = _
  have hfkpass : (fkCands (applyAdds reg (allAdds reg))).foldl fkStep
      (applyAdds reg (allAdds reg)) = applyAdds reg (allAdds reg) := by
    rw [fkCands_applyAdds]
    exact foldl_eq_of_steps_id _ _ _ (fun c hc => fkStep_id_on_closed hcf hc)
  rw [hfkpass, jCands_applyAdds]
  exact foldl_eq_of_steps_id _ _ _ (fun c hc => jStep_id_on_closed hcf hc)

/-- C7 counterexample: owner `book` has a foreign key `author_id`
referencing registered `author`'s primary key and no relationship
attribute for that foreign key, yet because `author` already has an
(unrelated) attribute named `books` — the name the resolver would
synthesize — the spec's collision rule skips the pair: after
`resolveAll()` the owner has no many-to-one attribute to the target and
the target has no matching one-to-many attribute, contradicting the claim
as stated. -/
theorem c7_counterexample :
    (fkField7 ∈ book7.fields ∧
     resolvableTarget reg7 fkField7 = some author7 ∧
     ∀ r ∈ book7.rels, r.fk_id ≠ some (book7.table_name, fkField7.name)) ∧
    (lookupEnt (resolveAll reg7) "author").map (fun e =>
      e.rels.countP (fun r => r.card == Card.oneToMany && r.target_table == "book")) = some 0 ∧
    (lookupEnt (resolveAll reg7) "book").map (fun e =>
      e.rels.countP (fun r => r.card == Card.manyToOne && r.target_table == "author")) =
        some 0 := by
  exact ⟨⟨by decide, by decide, by decide⟩, by decide, by decide⟩

/-- C7 amended (modelled from the spec, since the `auto_relationships`
module is not in the provided sources): in a collision-free registry —
unique table names, unique field names, no candidate foreign key already
resolved, and no synthesized attribute name colliding with an existing
attribute or another synthesized one — after `resolveAll()` the owner of
a resolvable foreign key carries exactly one attribute named by stripping
the foreign-key suffix, namely the many-to-one to the target with the
pluralized owner table as back-reference, the target carries exactly one
attribute named by pluralizing the owner's table name, namely the
matching one-to-many, and `resolveAll` is idempotent. -/
theorem c7_amended_resolveAll (reg : List Entity) (owner target : Entity) (f : FieldSpec)
    (hcf : collisionFree reg) (howner : owner ∈ reg) (hf : f ∈ owner.fields)
    (hres : resolvableTarget reg f = some target)
    (hnofk : ∀ r ∈ owner.rels, r.fk_id ≠ some (owner.table_name, f.name)) :
    (∀ owner', lookupEnt (resolveAll reg) owner.table_name = some owner' →
      owner'.rels.countP (fun r => r.attr_name == relFieldName f.name) = 1 ∧
      (⟨relFieldName f.name, target.table_name, .manyToOne, pluralizeTable owner.table_name,
        some (owner.table_name, f.name), none⟩ : RelAttr) ∈ owner'.rels) ∧
    (∀ target', lookupEnt (resolveAll reg) target.table_name = some target' →
      target'.rels.countP (fun r => r.attr_name == pluralizeTable owner.table_name) = 1 ∧
      (⟨pluralizeTable owner.table_name, owner.table_name, .oneToMany, relFieldName f.name,
        some (owner.table_name, f.name), none⟩ : RelAttr) ∈ target'.rels) ∧
    resolveAll (resolveAll reg) = resolveAll reg := by
  have hcf' := hcf
  obtain ⟨htab, hfields, hfk, hkeys, hfresh⟩ := hcf'
  have hc : (owner.table_name, f) ∈ fkCands reg :=
    fkCands_spec.mpr ⟨owner, howner, rfl, hf, resolvableTarget_isSome hres⟩
  have hentries : fkAddsOfCand reg (owner.table_name, f) =
      [(owner.table_name, ⟨relFieldName f.name, target.table_name, .manyToOne,
        pluralizeTable owner.table_name, some (owner.table_name, f.name), none⟩),
       (target.table_name, ⟨pluralizeTable owner.table_name, owner.table_name, .oneToMany,
        relFieldName f.name, some (owner.table_name, f.name), none⟩)] :=
    fkAddsOfCand_some hres
  have hm2o_all : (owner.table_name, (⟨relFieldName f.name, target.table_name, .manyToOne,
      pluralizeTable owner.table_name, some (owner.table_name, f.name), none⟩ : RelAttr)) ∈
      allAdds reg := by
    refine mem_allAdds_of_fk hc ?_
    rw [hentries]
    exact List.mem_cons_self _ _
  have ho2m_all : (target.table_name, (⟨pluralizeTable owner.table_name, owner.table_name,
      .oneToMany, relFieldName f.name, some (owner.table_name, f.name), none⟩ : RelAttr)) ∈
      allAdds reg := by
    refine mem_allAdds_of_fk hc ?_
    rw [hentries]
    exact List.mem_cons_of_mem _ (List.mem_cons_self _ _)
  have htgt : target ∈ reg := resolvableTarget_mem hres
  refine ⟨?_, ?_, resolveAll_idem hcf⟩
  · intro owner' hlook'
    rw [resolveAll_closed hcf, lookupEnt_applyAdds, lookupEnt_of_mem htab howner] at hlook'
    simp only [Option.map_some', Option.some.injEq] at hlook'
    subst hlook'
    constructor
    · rw [addsFor_rels, List.countP_append]
      have h0 : owner.rels.countP (fun r => r.attr_name == relFieldName f.name) = 0 := by
        refine List.countP_eq_zero.mpr ?_
        intro r hr
        simpa using hfresh _ hm2o_all owner howner rfl r hr
      have h1 := countP_one_of_mem_key (allAdds reg) hkeys hm2o_all
      rw [h0, h1]
    · rw [addsFor_rels]
      refine List.mem_append_right _ ?_
      refine List.mem_filterMap.mpr ⟨_, hm2o_all, ?_⟩
      rw [if_pos (by simp)]
  · intro target' hlook'
    rw [resolveAll_closed hcf, lookupEnt_applyAdds, lookupEnt_of_mem htab htgt] at hlook'
    simp only [Option.map_some', Option.some.injEq] at hlook'
    subst hlook'
    constructor
    · rw [addsFor_rels, List.countP_append]
      have h0 : target.rels.countP
          (fun r => r.attr_name == pluralizeTable owner.table_name) = 0 := by
        refine List.countP_eq_zero.mpr ?_
        intro r hr
        simpa using hfresh _ ho2m_all target htgt rfl r hr
      have h1 := countP_one_of_mem_key (allAdds reg) hkeys ho2m_all
      rw [h0, h1]
    · rw [addsFor_rels]
      refine List.mem_append_right _ ?_
      refine List.mem_filterMap.mpr ⟨_, ho2m_all, ?_⟩
      rw [if_pos (by simp)]

/-- Closed instance of the amended C7: the `author`/`book` registry of
the spec's end-to-end scenario. -/
theorem c7_amended_witness :
    (∀ owner', lookupEnt (resolveAll regW7) bookW.table_name = some owner' →
      owner'.rels.countP (fun r => r.attr_name == relFieldName fkFieldW.name) = 1 ∧
      (⟨relFieldName fkFieldW.name, authorW.table_name, .manyToOne,
        pluralizeTable bookW.table_name,
        some (bookW.table_name, fkFieldW.name), none⟩ : RelAttr) ∈ owner'.rels) ∧
    (∀ target', lookupEnt (resolveAll regW7) authorW.table_name = some target' →
      target'.rels.countP (fun r => r.attr_name == pluralizeTable bookW.table_name) = 1 ∧
      (⟨pluralizeTable bookW.table_name, bookW.table_name, .oneToMany,
        relFieldName fkFieldW.name,
        some (bookW.table_name, fkFieldW.name), none⟩ : RelAttr) ∈ target'.rels) ∧
    resolveAll (resolveAll regW7) = resolveAll regW7 :=
  c7_amended_resolveAll regW7 bookW authorW fkFieldW
    (by decide) (by decide) (by decide) (by decide) (by decide)
